import Mathlib

/-!
# Verification of `genstrokes.py` (kanji-strokes)

A shallow embedding of the stroke-diagram generator `genstrokes.py` and proofs
about it.  The program turns one glyph's ordered stroke paths into a grid of
panels (panel `i` shows strokes `0..i`), translating SVG path strings and label
transform matrices into each grid cell, and placing a marker circle at the
start point of each panel's newly revealed stroke.

Modelling conventions:
* Python `float` values are modelled as exact rationals (`ℚ`).  The program
  only ever parses finite decimal literals and adds integer offsets to them, so
  every value that occurs is an exact decimal; `'{0:.2f}'.format` is modelled
  as round-half-even to 2 decimal places of the exact value.
* Strings are Lean `String`s; all character processing happens on `List Char`.
* Python exceptions are modelled by `Except PyErr`: `ValueError` (raised
  explicitly by `shift_path`, by `float(...)`, and by tuple unpacking) and
  `IndexError` (out-of-range list subscript).  The batch driver `gen_strokes`
  catches exactly `ValueError`.
-/

namespace GenStrokes

/-- The two kinds of Python exception the modelled code can raise. -/
inductive PyErr where
  | valueError : PyErr
  | indexError : PyErr
deriving DecidableEq, Repr

/-- `gen_strokes` wraps `make_diagram` in `except ValueError`: only a
`ValueError` is caught (the glyph is then skipped); any other exception
propagates and aborts the batch run. -/
def caughtByBatch : PyErr → Bool
  | .valueError => true
  | .indexError => false

/-! ## Character classes

`caps_re = re.compile(r'([A-Z][0-9.,-]*)(?=[a-zA-Z])?')`: the lookahead group
is optional, hence a no-op, so the regex is equivalent to `[A-Z][0-9.,-]*`. -/

/-- Membership in the regex range `[A-Z]` (ASCII uppercase). -/
def isUpperAZ (c : Char) : Bool := decide (65 ≤ c.toNat ∧ c.toNat ≤ 90)

/-- Membership in the regex class `[0-9.,-]` (codes: digits 48–57, `.` 46,
`,` 44, `-` 45). -/
def inClass (c : Char) : Bool :=
  decide ((48 ≤ c.toNat ∧ c.toNat ≤ 57) ∨ c.toNat = 46 ∨ c.toNat = 44 ∨ c.toNat = 45)

/-- ASCII digit `0`–`9`. -/
def isDigitC (c : Char) : Bool := decide (48 ≤ c.toNat ∧ c.toNat ≤ 57)

theorem isUpperAZ_not_inClass {c : Char} (h : isUpperAZ c = true) : inClass c = false := by
  simp only [isUpperAZ, decide_eq_true_eq] at h
  simp only [inClass, decide_eq_false_iff_not]
  omega

theorem isDigitC_inClass {c : Char} (h : isDigitC c = true) : inClass c = true := by
  simp only [isDigitC, decide_eq_true_eq] at h
  simp only [inClass, decide_eq_true_eq]
  omega

/-! ## Python `str.split(sep)` with a one-character separator

`''.split(',') = ['']`, `'a,,b'.split(',') = ['a','','b']`. -/

/-- Python `s.split(sep)` for a single-character separator. -/
def splitChar (sep : Char) : List Char → List (List Char)
  | [] => [[]]
  | c :: cs =>
    if c = sep then [] :: splitChar sep cs
    else
      match splitChar sep cs with
      | [] => [[c]]
      | t :: ts => (c :: t) :: ts

theorem splitChar_ne_nil (sep : Char) (cs : List Char) : splitChar sep cs ≠ [] := by
  cases cs with
  | nil => simp [splitChar]
  | cons c cs =>
    simp only [splitChar]
    split
    · simp
    · split <;> simp

/-- Splitting a separator-free list returns it whole. -/
theorem splitChar_eq_self {sep : Char} {cs : List Char} (h : ∀ c ∈ cs, c ≠ sep) :
    splitChar sep cs = [cs] := by
  induction cs with
  | nil => rfl
  | cons c cs ih =>
    have hc : c ≠ sep := h c (by simp)
    have ih' := ih (fun x hx => h x (by simp [hx]))
    simp only [splitChar, if_neg hc, ih']

/-- Splitting `a ++ sep :: rest` when `a` is separator-free. -/
theorem splitChar_append {sep : Char} {a : List Char} (rest : List Char)
    (h : ∀ c ∈ a, c ≠ sep) :
    splitChar sep (a ++ sep :: rest) = a :: splitChar sep rest := by
  induction a with
  | nil => simp [splitChar]
  | cons c cs ih =>
    have hc : c ≠ sep := h c (by simp)
    have ih' := ih (fun x hx => h x (by simp [hx]))
    simp only [List.cons_append, splitChar, if_neg hc, List.append_eq]
    rw [ih']

/-! ## Digit strings -/

/-- The numeric value of a digit string, most significant digit first
(the value `int(s)` would compute for a digit-only string). -/
def digitsVal (cs : List Char) : ℕ := cs.foldl (fun a c => 10 * a + (c.toNat - 48)) 0

theorem digitsVal_aux (cs : List Char) (a : ℕ) :
    cs.foldl (fun a c => 10 * a + (c.toNat - 48)) a = a * 10 ^ cs.length + digitsVal cs := by
  induction cs generalizing a with
  | nil => simp [digitsVal]
  | cons c cs ih =>
    simp only [List.foldl_cons, List.length_cons, digitsVal] at *
    rw [ih, ih (10 * 0 + (c.toNat - 48))]
    ring

theorem digitsVal_append (xs ys : List Char) :
    digitsVal (xs ++ ys) = digitsVal xs * 10 ^ ys.length + digitsVal ys := by
  simp only [digitsVal, List.foldl_append]
  rw [digitsVal_aux]
  rfl

theorem digitsVal_replicate_zero (n : ℕ) (cs : List Char) :
    digitsVal (List.replicate n '0' ++ cs) = digitsVal cs := by
  induction n with
  | zero => simp
  | succ n ih =>
    simp only [List.replicate_succ, List.cons_append, digitsVal, List.foldl_cons] at *
    simpa using ih

/-- The sign prefix of a Python float literal: `float('-x') = -float('x')`,
`float('+x') = float('x')`. -/
def parseSign (cs : List Char) : ℚ × List Char :=
  if cs.head? = some '-' then (-1, cs.tail)
  else if cs.head? = some '+' then (1, cs.tail)
  else (1, cs)

theorem parseSign_other {c : Char} (t : List Char) (h1 : c ≠ '-') (h2 : c ≠ '+') :
    parseSign (c :: t) = (1, c :: t) := by
  simp [parseSign, h1, h2]

theorem parseSign_neg (t : List Char) : parseSign ('-' :: t) = (-1, t) := rfl

/-- `float(token)` for the token grammar that actually occurs in the data:
an optional sign, then digits with an optional decimal point, at least one
digit overall.  (Python's `float` also accepts exponents, `inf`/`nan`,
underscores and surrounding whitespace; none of these can occur inside the
`[0-9.,-]` payloads or the space-split matrix components this program parses.) -/
def parseUnsigned (cs : List Char) : Option ℚ :=
  if cs.dropWhile isDigitC = [] then
    if (cs.takeWhile isDigitC).isEmpty then none
    else some (digitsVal (cs.takeWhile isDigitC) : ℚ)
  else if (cs.dropWhile isDigitC).head? = some '.' then
    if (cs.dropWhile isDigitC).tail.dropWhile isDigitC = [] ∧
        ((cs.takeWhile isDigitC).isEmpty = false ∨
          ((cs.dropWhile isDigitC).tail.takeWhile isDigitC).isEmpty = false) then
      some ((digitsVal (cs.takeWhile isDigitC) : ℚ) +
        (digitsVal ((cs.dropWhile isDigitC).tail.takeWhile isDigitC) : ℚ) /
          10 ^ ((cs.dropWhile isDigitC).tail.takeWhile isDigitC).length)
    else none
  else none

def parseFloat (cs : List Char) : Option ℚ :=
  let sc := parseSign cs
  (parseUnsigned sc.2).map (sc.1 * ·)

/-! ## Decimal rendering -/

/-- The character for a single decimal digit. -/
def digitChar : ℕ → Char
  | 0 => '0' | 1 => '1' | 2 => '2' | 3 => '3' | 4 => '4'
  | 5 => '5' | 6 => '6' | 7 => '7' | 8 => '8' | _ => '9'

/-- Little-endian digits of `n`, with explicit fuel so the recursion is
structural; `[]` for `n = 0`. -/
def natDigsAux : ℕ → ℕ → List Char
  | 0, _ => []
  | fuel + 1, n => if n = 0 then [] else digitChar (n % 10) :: natDigsAux fuel (n / 10)

/-- The decimal digit string of `n` (at least one digit). -/
def renderNat (n : ℕ) : List Char :=
  if n = 0 then ['0'] else (natDigsAux n n).reverse

theorem natDigsAux_zero (fuel : ℕ) : natDigsAux fuel 0 = [] := by
  cases fuel <;> simp [natDigsAux]

theorem digitChar_isDigitC {d : ℕ} (h : d < 10) : isDigitC (digitChar d) = true := by
  interval_cases d <;> decide

theorem digitChar_toNat {d : ℕ} (h : d < 10) : (digitChar d).toNat = 48 + d := by
  interval_cases d <;> decide

theorem natDigsAux_correct (fuel : ℕ) :
    ∀ n, 0 < n → n ≤ fuel →
      digitsVal (natDigsAux fuel n).reverse = n ∧
      (∀ c ∈ natDigsAux fuel n, isDigitC c = true) ∧
      natDigsAux fuel n ≠ [] := by
  induction fuel with
  | zero => intro n h1 h2; omega
  | succ fuel ih =>
    intro n h1 h2
    have hn : n ≠ 0 := by omega
    simp only [natDigsAux, if_neg hn]
    by_cases hq : n / 10 = 0
    · refine ⟨?_, ?_, by simp⟩
      · rw [hq, natDigsAux_zero]
        simp [digitsVal, digitChar_toNat (show n % 10 < 10 from Nat.mod_lt n (by norm_num))]
        omega
      · intro c hc
        simp only [hq, natDigsAux_zero, List.mem_cons, List.not_mem_nil, or_false] at hc
        subst hc
        exact digitChar_isDigitC (Nat.mod_lt n (by norm_num))
    · have hlt : n / 10 ≤ fuel := by omega
      obtain ⟨hv, hd, _⟩ := ih (n / 10) (by omega) hlt
      refine ⟨?_, ?_, by simp⟩
      · rw [List.reverse_cons, digitsVal_append, hv]
        simp [digitsVal, digitChar_toNat (Nat.mod_lt n (by norm_num))]
        omega
      · intro c hc
        rcases List.mem_cons.mp hc with h | h
        · subst h; exact digitChar_isDigitC (Nat.mod_lt n (by norm_num))
        · exact hd c h

theorem renderNat_correct (n : ℕ) :
    digitsVal (renderNat n) = n ∧ (∀ c ∈ renderNat n, isDigitC c = true) ∧
      renderNat n ≠ [] := by
  by_cases h : n = 0
  · subst h; refine ⟨by decide, ?_, by decide⟩
    intro c hc
    simp only [renderNat, if_pos, List.mem_singleton] at hc
    subst hc; decide
  · obtain ⟨hv, hd, hne⟩ := natDigsAux_correct n n (by omega) le_rfl
    refine ⟨by simpa [renderNat, h] using hv, ?_, by simpa [renderNat, h] using hne⟩
    intro c hc
    simp only [renderNat, if_neg h, List.mem_reverse] at hc
    exact hd c hc

/-! ## Round-half-even and fixed-point formatting

`'{0:.2f}'.format(v)` rounds the value to 2 decimal places using
round-half-even (Python's float formatting) and always prints the sign,
an integer part of at least one digit, and exactly 2 fractional digits. -/

/-- Round to the nearest integer, ties to even. -/
def roundHE (q : ℚ) : ℤ :=
  if q - ⌊q⌋ < 1 / 2 then ⌊q⌋
  else if 1 / 2 < q - ⌊q⌋ then ⌊q⌋ + 1
  else if Even ⌊q⌋ then ⌊q⌋ else ⌊q⌋ + 1

theorem roundHE_intCast (n : ℤ) : roundHE n = n := by
  simp [roundHE]

theorem roundHE_add_int_even (q : ℚ) (n : ℤ) (hn : Even n) :
    roundHE (q + n) = roundHE q + n := by
  have hfl : ⌊q + (n : ℚ)⌋ = ⌊q⌋ + n := Int.floor_add_int q n
  have hfr : q + (n : ℚ) - ((⌊q⌋ + n : ℤ) : ℚ) = q - ⌊q⌋ := by push_cast; ring
  have hev : Even (⌊q⌋ + n) ↔ Even ⌊q⌋ := by
    rw [Int.even_add]
    tauto
  simp only [roundHE, hfl, hfr]
  split_ifs <;> simp_all <;> omega

/-- The digit string of `n` rendered with exactly `k` digits after the
decimal point (the body of `'{0:.kf}'.format` after rounding). -/
def renderFixed (n : ℤ) (k : ℕ) : List Char :=
  let ds := List.replicate (k + 1 - (renderNat n.natAbs).length) '0' ++ renderNat n.natAbs
  (if n < 0 then ['-'] else []) ++ ds.take (ds.length - k) ++ '.' :: ds.drop (ds.length - k)

/-- `'{0:.2f}'.format(q)` on the exact value. -/
def fmt2 (q : ℚ) : List Char := renderFixed (roundHE (q * 100)) 2

/-- `'{0:.3f}'.format(q)` on the exact value. -/
def fmt3 (q : ℚ) : List Char := renderFixed (roundHE (q * 1000)) 3

/-! ### Parsing back what was rendered -/

theorem takeWhile_all {p : Char → Bool} : ∀ {xs : List Char}, (∀ c ∈ xs, p c = true) →
    xs.takeWhile p = xs ∧ xs.dropWhile p = [] := by
  intro xs h
  induction xs with
  | nil => simp
  | cons c cs ih =>
    have hc := h c (by simp)
    have := ih (fun x hx => h x (by simp [hx]))
    simp [List.takeWhile_cons, List.dropWhile_cons, hc, this]

theorem takeWhile_append_stop {p : Char → Bool} {xs : List Char} (h : ∀ c ∈ xs, p c = true)
    (y : Char) (hy : p y = false) (rest : List Char) :
    (xs ++ y :: rest).takeWhile p = xs ∧ (xs ++ y :: rest).dropWhile p = y :: rest := by
  induction xs with
  | nil => simp [List.takeWhile_cons, List.dropWhile_cons, hy]
  | cons c cs ih =>
    have hc := h c (by simp)
    have := ih (fun x hx => h x (by simp [hx]))
    simp [List.takeWhile_cons, List.dropWhile_cons, hc, this]

theorem isDigitC_ne_minus {c : Char} (h : isDigitC c = true) : c ≠ '-' := by
  intro hc
  subst hc
  exact absurd h (by decide)

theorem isDigitC_ne_plus {c : Char} (h : isDigitC c = true) : c ≠ '+' := by
  intro hc
  subst hc
  exact absurd h (by decide)

theorem isDigitC_ne_dot {c : Char} (h : isDigitC c = true) : c ≠ '.' := by
  intro hc
  subst hc
  exact absurd h (by decide)

/-- Parsing an unsigned digit string gives its value. -/
theorem parseUnsigned_digits {ds : List Char} (hne : ds ≠ [])
    (hd : ∀ c ∈ ds, isDigitC c = true) :
    parseUnsigned ds = some (digitsVal ds : ℚ) := by
  obtain ⟨ht, hdr⟩ := takeWhile_all hd
  have : ds.isEmpty = false := by
    cases ds
    · exact absurd rfl hne
    · rfl
  simp only [parseUnsigned, ht, hdr, this]
  rfl

/-- Parsing `ip ++ "." ++ fp` (digit strings) gives the decimal value. -/
theorem parseUnsigned_ip_fp {ip fp : List Char} (hipne : ip ≠ [])
    (hip : ∀ c ∈ ip, isDigitC c = true) (hfp : ∀ c ∈ fp, isDigitC c = true) :
    parseUnsigned (ip ++ '.' :: fp) =
      some ((digitsVal ip : ℚ) + (digitsVal fp : ℚ) / 10 ^ fp.length) := by
  obtain ⟨ht, hdr⟩ := takeWhile_append_stop hip '.' (by decide) fp
  obtain ⟨htf, hdf⟩ := takeWhile_all hfp
  simp only [parseUnsigned, ht, hdr]
  simp [hipne, htf, hdf, hfp]

/-- `parseFloat` on a string whose head is an unsigned digit is the unsigned parse. -/
theorem parseFloat_of_digit_head {c : Char} {cs : List Char} (hc : isDigitC c = true) :
    parseFloat (c :: cs) = (parseUnsigned (c :: cs)).map ((1 : ℚ) * ·) := by
  rw [parseFloat, parseSign_other cs (isDigitC_ne_minus hc) (isDigitC_ne_plus hc)]

/-- Parsing the fixed-point rendering of `n` with `k ≥ 1` fractional digits
recovers `n / 10^k` exactly. -/
theorem parseFloat_renderFixed (n : ℤ) (k : ℕ) (hk : 0 < k) :
    parseFloat (renderFixed n k) = some ((n : ℚ) / 10 ^ k) := by
  obtain ⟨hval, hdig, hne⟩ := renderNat_correct n.natAbs
  set ds : List Char :=
    List.replicate (k + 1 - (renderNat n.natAbs).length) '0' ++ renderNat n.natAbs with hds
  have hdsd : ∀ c ∈ ds, isDigitC c = true := by
    intro c hc
    rcases List.mem_append.mp hc with h | h
    · rw [List.eq_of_mem_replicate h]; decide
    · exact hdig c h
  have hdsv : digitsVal ds = n.natAbs := by rw [hds, digitsVal_replicate_zero, hval]
  have hlen : k + 1 ≤ ds.length := by
    rw [hds, List.length_append, List.length_replicate]
    have : 1 ≤ (renderNat n.natAbs).length := List.length_pos.mpr hne
    omega
  set ip := ds.take (ds.length - k) with hip
  set fp := ds.drop (ds.length - k) with hfp
  have hsplit : ip ++ fp = ds := List.take_append_drop _ _
  have hiplen : ip.length = ds.length - k := by
    rw [hip, List.length_take]
    omega
  have hfplen : fp.length = k := by
    rw [hfp, List.length_drop]
    omega
  have hipne : ip ≠ [] := by
    intro h
    rw [h] at hiplen
    simp at hiplen
    omega
  have hipd : ∀ c ∈ ip, isDigitC c = true := fun c hc => hdsd c (hsplit ▸ List.mem_append_left _ hc)
  have hfpd : ∀ c ∈ fp, isDigitC c = true := fun c hc => hdsd c (hsplit ▸ List.mem_append_right _ hc)
  have hvals : digitsVal ip * 10 ^ k + digitsVal fp = n.natAbs := by
    rw [← hdsv, ← hsplit, digitsVal_append, hfplen]
  have hpow : ((10 : ℚ) ^ k) ≠ 0 := by positivity
  have hbody := parseUnsigned_ip_fp hipne hipd hfpd
  have habs : (digitsVal ip : ℚ) + (digitsVal fp : ℚ) / 10 ^ fp.length =
      (n.natAbs : ℚ) / 10 ^ k := by
    rw [hfplen, eq_div_iff hpow, add_mul, div_mul_cancel₀ _ hpow, ← hvals]
    push_cast
    ring
  obtain ⟨c, cs, hcs⟩ := List.exists_cons_of_ne_nil hipne
  have hchd : isDigitC c = true := hipd c (by rw [hcs]; simp)
  by_cases hn : n < 0
  · have hrf : renderFixed n k = '-' :: (ip ++ '.' :: fp) := by
      simp only [renderFixed, ← hds, ← hip, ← hfp, if_pos hn]
      rfl
    rw [hrf, parseFloat, parseSign_neg, hbody]
    simp only [Option.map_some']
    rw [habs, Int.cast_natAbs, abs_of_neg hn]
    simp only [Option.some.injEq]
    push_cast
    ring
  · have hrf : renderFixed n k = ip ++ '.' :: fp := by
      simp only [renderFixed, ← hds, ← hip, ← hfp, if_neg hn]
      rfl
    rw [hrf, hcs, List.cons_append, parseFloat_of_digit_head hchd, ← List.cons_append, ← hcs,
      hbody]
    simp only [Option.map_some', one_mul]
    rw [habs, Int.cast_natAbs, abs_of_nonneg (not_lt.mp hn)]

/-! ## `str(float)` rendering and its round-trip

`str` of a Python float prints the shortest decimal that round-trips; on the
exact decimals this program manipulates that is the minimal-exponent decimal
expansion, with at least one fractional digit (`str(30.0) = '30.0'`). -/

/-- The least `k ≤ q.den` with `q * 10^k` integral (and `0` if none exists;
for every value arising in this program one always exists). -/
def pow10Exp (q : ℚ) : ℕ :=
  (((List.range (q.den + 1)).find? fun k => (q * 10 ^ k).den == 1).getD 0)

/-- `str(q)` for a float holding the exact decimal `q`. -/
def pyRepr (q : ℚ) : List Char :=
  if pow10Exp q = 0 then
    (if (q * 10 ^ pow10Exp q).num < 0 then ['-'] else []) ++
      renderNat (q * 10 ^ pow10Exp q).num.natAbs ++ ['.', '0']
  else renderFixed (q * 10 ^ pow10Exp q).num (pow10Exp q)

/-- A divisor of a power of 10 divides the 10-power of itself. -/
theorem dvd_ten_pow : ∀ d : ℕ, ∀ l : ℕ, d ∣ 10 ^ l → d ∣ 10 ^ d := by
  intro d
  induction d using Nat.strong_induction_on with
  | _ d ih =>
    intro l h
    rcases Nat.eq_zero_or_pos d with rfl | hd0
    · exact absurd (Nat.eq_zero_of_zero_dvd h) (by positivity)
    rcases Nat.eq_or_lt_of_le hd0 with h1 | h2
    · exact h1 ▸ one_dvd _
    obtain ⟨p, pp, pd⟩ := Nat.exists_prime_and_dvd (show d ≠ 1 by omega)
    have p10 : p ∣ 10 := pp.dvd_of_dvd_pow (pd.trans h)
    obtain ⟨m, hm⟩ := pd
    have hp2 : 2 ≤ p := pp.two_le
    have hmpos : 0 < m := by
      rcases Nat.eq_zero_or_pos m with rfl | h
      · omega
      · exact h
    have hmlt : m < d := by
      calc m < p * m := by
            have := Nat.mul_lt_mul_of_pos_right (show 1 < p by omega) hmpos
            omega
        _ = d := hm.symm
    have hmdvd : m ∣ 10 ^ l := (show m ∣ d from ⟨p, by rw [hm]; ring⟩).trans h
    have ihm : m ∣ 10 ^ m := ih m hmlt l hmdvd
    have hstep : d ∣ 10 ^ (m + 1) := by
      rw [hm, pow_succ, mul_comm (10 ^ m) 10]
      exact mul_dvd_mul p10 ihm
    exact hstep.trans (pow_dvd_pow 10 (by omega))

/-- If `q.den` divides `m` then `q * m` is integral. -/
theorem den_one_of_den_dvd (q : ℚ) (m : ℕ) (hm : q.den ∣ m) : (q * (m : ℚ)).den = 1 := by
  obtain ⟨c, rfl⟩ := hm
  have hden : ((q.den : ℚ)) ≠ 0 := by
    exact_mod_cast q.den_nz
  have hmul : q * ((q.den : ℚ)) = (q.num : ℚ) := by
    have h := Rat.num_div_den q
    rw [div_eq_iff hden] at h
    exact h.symm
  have : q * ((q.den * c : ℕ) : ℚ) = ((q.num * c : ℤ) : ℚ) := by
    push_cast
    rw [← mul_assoc, hmul]
  rw [this, Rat.den_intCast]

/-- The denominator of `(a : ℚ) / (m : ℚ)` divides `m` (for `m : ℕ`). -/
theorem den_div_nat_dvd (a : ℤ) (m : ℕ) : ((a : ℚ) / (m : ℚ)).den ∣ m := by
  have h := Rat.den_dvd a m
  rw [Rat.divInt_eq_div] at h
  exact_mod_cast Int.natAbs_dvd_natAbs.mpr h |>.trans (dvd_refl _)

/-- Values produced by `parseUnsigned` have denominator dividing a power of 10. -/
theorem parseUnsigned_den_dvd {cs : List Char} {v : ℚ} (h : parseUnsigned cs = some v) :
    ∃ l, v.den ∣ 10 ^ l := by
  rw [parseUnsigned] at h
  split_ifs at h
  · refine ⟨0, ?_⟩
    obtain rfl : ((digitsVal (cs.takeWhile isDigitC)) : ℚ) = v := Option.some.inj h
    simp [Rat.den_natCast]
  · set r := (cs.dropWhile isDigitC).tail with hr
    obtain rfl : ((digitsVal (cs.takeWhile isDigitC)) : ℚ) +
        (digitsVal (r.takeWhile isDigitC) : ℚ) / 10 ^ (r.takeWhile isDigitC).length = v :=
      Option.some.inj h
    refine ⟨(r.takeWhile isDigitC).length, ?_⟩
    have h1 : (((digitsVal (cs.takeWhile isDigitC) : ℚ)).den) = 1 := Rat.den_natCast _
    have h2 : ((digitsVal (r.takeWhile isDigitC) : ℚ) /
        10 ^ (r.takeWhile isDigitC).length).den ∣ 10 ^ (r.takeWhile isDigitC).length := by
      have := den_div_nat_dvd (digitsVal (r.takeWhile isDigitC) : ℤ)
        (10 ^ (r.takeWhile isDigitC).length)
      push_cast at this ⊢
      exact this
    have h3 := Rat.add_den_dvd ((digitsVal (cs.takeWhile isDigitC)) : ℚ)
      ((digitsVal (r.takeWhile isDigitC) : ℚ) / 10 ^ (r.takeWhile isDigitC).length)
    rw [h1, one_mul] at h3
    exact h3.trans h2

/-- Values produced by `parseFloat` have denominator dividing a power of 10. -/
theorem parseFloat_den_dvd {cs : List Char} {v : ℚ} (h : parseFloat cs = some v) :
    ∃ l, v.den ∣ 10 ^ l := by
  rw [parseFloat] at h
  rcases hu : parseUnsigned (parseSign cs).2 with _ | u <;> rw [hu] at h
  · exact absurd h (by simp)
  · obtain ⟨l, hl⟩ := parseUnsigned_den_dvd hu
    refine ⟨l, ?_⟩
    simp only [Option.map_some', Option.some.injEq] at h
    have hsgn : (parseSign cs).1 = 1 ∨ (parseSign cs).1 = -1 := by
      rw [parseSign]
      split_ifs <;> simp
    rcases hsgn with hs | hs <;> rw [hs] at h <;> rw [← h]
    · simpa using hl
    · simpa [Rat.den_neg_eq_den] using hl

/-- Like `parseFloat_renderFixed`, for the `k = 0` branch of `pyRepr`
(`digits ++ ".0"`). -/
theorem parseFloat_intDotZero (n : ℤ) :
    parseFloat ((if n < 0 then ['-'] else []) ++ renderNat n.natAbs ++ ['.', '0']) =
      some ((n : ℚ)) := by
  obtain ⟨hval, hdig, hne⟩ := renderNat_correct n.natAbs
  have hbody : parseUnsigned (renderNat n.natAbs ++ '.' :: ['0']) =
      some ((digitsVal (renderNat n.natAbs) : ℚ) + (digitsVal ['0'] : ℚ) / 10 ^ ([('0' : Char)]).length) :=
    parseUnsigned_ip_fp hne hdig (by intro c hc; simp at hc; subst hc; decide)
  have hv : ((digitsVal (renderNat n.natAbs) : ℚ) + (digitsVal ['0'] : ℚ) /
      10 ^ ([('0' : Char)]).length) = (n.natAbs : ℚ) := by
    rw [hval, show digitsVal ['0'] = 0 from by decide]
    norm_num
  obtain ⟨c, cs, hcs⟩ := List.exists_cons_of_ne_nil hne
  have hchd : isDigitC c = true := hdig c (by rw [hcs]; simp)
  by_cases hn : n < 0
  · rw [if_pos hn]
    show parseFloat ('-' :: (renderNat n.natAbs ++ '.' :: ['0'])) = _
    rw [parseFloat, parseSign_neg, hbody]
    simp only [Option.map_some', Option.some.injEq]
    rw [hv, Int.cast_natAbs, abs_of_neg hn]
    push_cast
    ring
  · rw [if_neg hn]
    show parseFloat (renderNat n.natAbs ++ '.' :: ['0']) = _
    rw [hcs, List.cons_append, parseFloat_of_digit_head hchd, ← List.cons_append, ← hcs, hbody]
    simp only [Option.map_some', one_mul, Option.some.injEq]
    rw [hv, Int.cast_natAbs, abs_of_nonneg (not_lt.mp hn)]

/-- Round-trip: parsing `str(q)` recovers `q` for every exact decimal `q`. -/
theorem parseFloat_pyRepr {q : ℚ} (h : ∃ l, q.den ∣ 10 ^ l) :
    parseFloat (pyRepr q) = some q := by
  obtain ⟨l, hl⟩ := h
  have hdd : q.den ∣ 10 ^ q.den := dvd_ten_pow q.den l hl
  have hsat : ((q * 10 ^ q.den).den == 1) = true := by
    have h1 : (q * ((10 ^ q.den : ℕ) : ℚ)).den = 1 := den_one_of_den_dvd q (10 ^ q.den) hdd
    push_cast at h1
    simpa [beq_iff_eq] using h1
  have hex : ∃ x ∈ List.range (q.den + 1), ((q * 10 ^ x).den == 1) = true :=
    ⟨q.den, by simp, hsat⟩
  obtain ⟨k₀, hk₀⟩ := Option.isSome_iff_exists.mp (List.find?_isSome.mpr hex)
  have hpk : (q * 10 ^ k₀).den = 1 := by simpa [beq_iff_eq] using List.find?_some hk₀
  have hexp : pow10Exp q = k₀ := by rw [pow10Exp, hk₀]; rfl
  have hqn : ((q * 10 ^ k₀).num : ℚ) = q * 10 ^ k₀ := (Rat.den_eq_one_iff _).mp hpk
  have hpow : ((10 : ℚ) ^ k₀) ≠ 0 := by positivity
  have hq : ((q * 10 ^ k₀).num : ℚ) / 10 ^ k₀ = q := by
    rw [hqn]
    field_simp
  by_cases hk0 : k₀ = 0
  · have hz : pow10Exp q = 0 := by rw [hexp, hk0]
    rw [pyRepr, if_pos hz, hz, parseFloat_intDotZero, pow_zero, mul_one]
    rw [hk0, pow_zero, mul_one] at hqn
    rw [hqn]
  · have hz : pow10Exp q = k₀ := hexp
    rw [pyRepr, hz, if_neg hk0]
    rw [parseFloat_renderFixed _ _ (Nat.pos_of_ne_zero hk0), hq]

/-! ### Character sets of rendered numbers -/

/-- A character of a rendered number: digit, point, or minus sign. -/
def isNumChar (c : Char) : Prop := isDigitC c = true ∨ c = '.' ∨ c = '-'

theorem isNumChar_ne_comma {c : Char} (h : isNumChar c) : c ≠ ',' := by
  rcases h with h | h | h
  · intro hc
    subst hc
    exact absurd h (by decide)
  · subst h; decide
  · subst h; decide

theorem isNumChar_ne_space {c : Char} (h : isNumChar c) : c ≠ ' ' := by
  rcases h with h | h | h
  · intro hc
    subst hc
    exact absurd h (by decide)
  · subst h; decide
  · subst h; decide

theorem isNumChar_inClass {c : Char} (h : isNumChar c) : inClass c = true := by
  rcases h with h | h | h
  · exact isDigitC_inClass h
  · subst h; decide
  · subst h; decide

theorem renderFixed_chars (n : ℤ) (k : ℕ) : ∀ c ∈ renderFixed n k, isNumChar c := by
  intro c hc
  obtain ⟨-, hdig, -⟩ := renderNat_correct n.natAbs
  have hds : ∀ x ∈ (List.replicate (k + 1 - (renderNat n.natAbs).length) '0' ++
      renderNat n.natAbs), isDigitC x = true := by
    intro x hx
    rcases List.mem_append.mp hx with h | h
    · rw [List.eq_of_mem_replicate h]; decide
    · exact hdig x h
  simp only [renderFixed, List.mem_append, List.mem_cons] at hc
  rcases hc with (h | h) | h
  · split_ifs at h
    · simp at h
      subst h
      right
      right
      rfl
    · simp at h
  · exact Or.inl (hds c (List.mem_of_mem_take h))
  · rcases h with h | h
    · subst h
      exact Or.inr (Or.inl rfl)
    · exact Or.inl (hds c (List.mem_of_mem_drop h))

theorem pyRepr_chars (q : ℚ) : ∀ c ∈ pyRepr q, isNumChar c := by
  intro c hc
  have hgen : ∀ sgn : List Char, (∀ x ∈ sgn, x = '-') →
      c ∈ sgn ++ renderNat (q * 10 ^ pow10Exp q).num.natAbs ++ ['.', '0'] → isNumChar c := by
    intro sgn hs h
    obtain ⟨-, hdig, -⟩ := renderNat_correct (q * 10 ^ pow10Exp q).num.natAbs
    rcases List.mem_append.mp h with h | h
    · rcases List.mem_append.mp h with h | h
      · rw [hs c h]
        exact Or.inr (Or.inr rfl)
      · exact Or.inl (hdig c h)
    simp only [List.mem_cons, List.mem_singleton, List.not_mem_nil, or_false] at h
    rcases h with h | h
    · subst h
      exact Or.inr (Or.inl rfl)
    · subst h
      exact Or.inl (by decide)
  rw [pyRepr] at hc
  split_ifs at hc with h1 h2
  · exact hgen ['-'] (by simp) hc
  · exact hgen [] (by simp) hc
  · exact renderFixed_chars _ _ c hc

/-! ## Configuration constants of `genstrokes.py` -/

/-- Number of boxes per line in the diagrams. -/
def boxes_per_line : ℕ := 6

/-- Radius of the circle used to indicate the start of a stroke. -/
def circle_radius : String := "3"

/-- Stroke-width of the circle. -/
def circle_sw : String := "0"

/-- Fill colour for the circle. -/
def circle_fill : String := "red"

/-- Width of each box in KanjiVG. -/
def kanjivg_width : ℕ := 109

/-- Height of each box in KanjiVG. -/
def kanjivg_height : ℕ := 109

/-! ## The scanner: `caps_re.finditer(d)`

`finditer` scans left to right; at an `[A-Z]` character it takes the maximal
run of `[0-9.,-]` characters as the match payload, everything else is skipped
one character at a time.  (The matches are computed against the original
string; `shift_path` splices replacements in while adjusting positions by the
cumulative length change, which is exactly a left-to-right rebuild.) -/

/-- A piece of the path string: an unmatched character, or one regex match
`head ++ payload` with `head ∈ [A-Z]` and `payload` the maximal `[0-9.,-]` run. -/
inductive Tok where
  | gap : Char → Tok
  | run : Char → List Char → Tok
deriving DecidableEq, Repr

/-- The scanner as a state machine (state: the match being accumulated). -/
def tokAux : Option (Char × List Char) → List Char → List Tok
  | none, [] => []
  | some (h, acc), [] => [.run h acc]
  | none, c :: rest =>
    if isUpperAZ c then tokAux (some (c, [])) rest
    else .gap c :: tokAux none rest
  | some (h, acc), c :: rest =>
    if inClass c then tokAux (some (h, acc ++ [c])) rest
    else if isUpperAZ c then .run h acc :: tokAux (some (c, [])) rest
    else .run h acc :: .gap c :: tokAux none rest

/-- The match/gap decomposition `caps_re.finditer` induces on a string. -/
def tokenize (cs : List Char) : List Tok := tokAux none cs

/-- Reassemble the string from its decomposition. -/
def renderToks : List Tok → List Char
  | [] => []
  | .gap c :: ts => c :: renderToks ts
  | .run h p :: ts => h :: (p ++ renderToks ts)

/-! ## `shift_path` -/

/-- Add `dx` to the values at even positions and `dy` at odd positions
(`parts[i] += x_shift; parts[i+1] += y_shift; ...` -- every group size used
is even, so the alternation is global). -/
def shiftAlt (dx dy : ℚ) : List ℚ → List ℚ
  | [] => []
  | v :: vs => (v + dx) :: shiftAlt dy dx vs

/-- Re-emission of a `C` run:
`tmp_d += '{0:.2f},{1:.2f},{2:.2f},{3:.2f},{4:.2f},{5:.2f}'.format(*parts[i:i+6])`
per group of 6 -- note there is no separator between successive groups. -/
def renderC : List ℚ → List Char
  | a :: b :: c :: d :: e :: f :: rest =>
    fmt2 a ++ ',' :: fmt2 b ++ ',' :: fmt2 c ++ ',' :: fmt2 d ++ ',' :: fmt2 e ++ ',' :: fmt2 f
      ++ renderC rest
  | _ => []

/-- Re-emission of an `S` run:
`tmp_d += '{0:.2f},{1:.2f},{2:.2f},{3:.3f}'.format(*parts[i:i+4])` per group
of 4 -- again with no separator between groups, and the fourth value at 3
decimal places. -/
def renderS : List ℚ → List Char
  | a :: b :: c :: d :: rest =>
    fmt2 a ++ ',' :: fmt2 b ++ ',' :: fmt2 c ++ ',' :: fmt3 d ++ renderS rest
  | _ => []

/-- Python list subscript `l[i]`: raises `IndexError` when out of range. -/
def getIndex {α : Type} (l : List α) (i : ℕ) : Except PyErr α :=
  match l[i]? with
  | some a => .ok a
  | none => .error .indexError

theorem getIndex_ok {α : Type} {l : List α} {i : ℕ} {a : α} :
    getIndex l i = .ok a ↔ l[i]? = some a := by
  rw [getIndex]
  cases l[i]? <;> simp

/-- `float(token)`: raises `ValueError` on an unparsable token. -/
def toFloat (cs : List Char) : Except PyErr ℚ :=
  match parseFloat cs with
  | some v => .ok v
  | none => .error .valueError

theorem toFloat_ok {cs : List Char} {v : ℚ} :
    toFloat cs = .ok v ↔ parseFloat cs = some v := by
  rw [toFloat]
  cases parseFloat cs <;> simp

/-- `[float(x) for x in tokens]`: raises `ValueError` on the first bad token. -/
def parseFloats (ts : List (List Char)) : Except PyErr (List ℚ) :=
  match ts.mapM parseFloat with
  | some vs => .ok vs
  | none => .error .valueError

theorem parseFloats_ok {ts : List (List Char)} {vs : List ℚ} :
    parseFloats ts = .ok vs ↔ ts.mapM parseFloat = some vs := by
  rw [parseFloats]
  cases ts.mapM parseFloat <;> simp

/-- Inverting a successful `Except` bind. -/
theorem bind_ok_iff {ε α β : Type} {x : Except ε α} {f : α → Except ε β} {v : β} :
    (x >>= f) = .ok v ↔ ∃ a, x = .ok a ∧ f a = .ok v := by
  cases x <;> simp [Bind.bind, Except.bind]

/-- Processing of one regex match inside `shift_path`'s loop.  `st` is the
`(first_x, first_y)` pair (`none` models Python `None`); the result is the
replacement text (as a token) and the updated pair. -/
def runStep (dx dy : ℚ) (h : Char) (p : List Char) (st : Option (ℚ × ℚ)) :
    Except PyErr (Tok × Option (ℚ × ℚ)) :=
  if h = 'M' then
    parseFloats (splitChar ',' p) >>= fun vs =>
      if hv : vs.length = 2 then
        .ok (.run 'M' (pyRepr (vs[0] + dx) ++ ',' :: pyRepr (vs[1] + dy)),
          some (st.getD (vs[0] + dx, vs[1] + dy)))
      else .error .valueError
  else if h = 'C' then
    parseFloats (splitChar ',' p) >>= fun vs =>
      if vs.length % 6 ≠ 0 then .error .valueError
      else .ok (.run 'C' (renderC (shiftAlt dx dy vs)), st)
  else if h = 'S' then
    parseFloats (splitChar ',' p) >>= fun vs =>
      if vs.length % 4 ≠ 0 then .error .valueError
      else .ok (.run 'S' (renderS (shiftAlt dx dy vs)), st)
  else .error .valueError

/-- The loop of `shift_path` over the regex matches, rebuilding the string
left to right and threading the first-M state. -/
def goToks (dx dy : ℚ) : List Tok → Option (ℚ × ℚ) → Except PyErr (List Tok × Option (ℚ × ℚ))
  | [], st => .ok ([], st)
  | .gap c :: ts, st =>
    goToks dx dy ts st >>= fun r => .ok (.gap c :: r.1, r.2)
  | .run h p :: ts, st =>
    runStep dx dy h p st >>= fun t =>
      goToks dx dy ts t.2 >>= fun r => .ok (t.1 :: r.1, r.2)

/-- `shift_path(d, row, col)`: translate every supported path command by
`(col * kanjivg_width, row * kanjivg_height)` and return the new command
string together with the translated start point of the first `M`. -/
def shift_path (d : String) (row col : ℕ) : Except PyErr (String × Option ℚ × Option ℚ) :=
  goToks ((col * kanjivg_width : ℕ) : ℚ) ((row * kanjivg_height : ℕ) : ℚ)
      (tokenize d.data) none >>= fun r =>
    .ok (⟨renderToks r.1⟩, r.2.map Prod.fst, r.2.map Prod.snd)

/-! ## `shift_transform` -/

/-- `shift_transform(mat, row, col)`: split `mat[7:-1]` on spaces, read
components 4 and 5 (`IndexError` if absent, `ValueError` if non-numeric),
shift them, and re-emit `matrix(1 0 0 1 {e:.2f} {f:.2f})`.  Note the source
shifts the `f` component by `row * kanjivg_width` (not `kanjivg_height`). -/
def shift_transform (mat : String) (row col : ℕ) : Except PyErr String :=
  getIndex (splitChar ' ' ((mat.data.drop 7).dropLast)) 4 >>= fun p4 =>
    toFloat p4 >>= fun e =>
      getIndex (splitChar ' ' ((mat.data.drop 7).dropLast)) 5 >>= fun p5 =>
        toFloat p5 >>= fun f =>
          .ok ("matrix(1 0 0 1 " ++ (⟨fmt2 (e + ((col * kanjivg_width : ℕ) : ℚ))⟩ : String) ++
            " " ++ (⟨fmt2 (f + ((row * kanjivg_width : ℕ) : ℚ))⟩ : String) ++ ")")

/-! ## `make_diagram`

The XML glue is abstracted into a `Glyph`: the ordered `d` attributes of the
stroke `<path>` elements, the ordered `transform` attributes of the stroke
number `<text>` elements, and the id of the inner stroke group.  The output
tree is modelled by the ordered children appended to the stroke group
(`base`), the text elements appended to the number group (`sn_base`), and the
`width`/`height`/`viewBox` attributes set on the root. -/

/-- Input glyph document (the parts of the KanjiVG tree `make_diagram` reads). -/
structure Glyph where
  id_base : String
  paths : List String
  numbers : List String
deriving Repr

/-- A generated `<path>` element. -/
structure PathElem where
  id : String
  d : String
deriving DecidableEq, Repr

/-- A generated `<text>` element. -/
structure TextElem where
  transform : String
  text : String
deriving DecidableEq, Repr

/-- A generated `<circle>` element. -/
structure CircleElem where
  cx : String
  cy : String
  r : String
  stroke_width : String
  fill : String
deriving DecidableEq, Repr

/-- `str(x)` for an optional float (`str(None) = 'None'`). -/
def pyOptStr : Option ℚ → String
  | some q => ⟨pyRepr q⟩
  | none => "None"

/-- `circle(x, y)`: the marker circle element. -/
def circle' (x y : Option ℚ) : CircleElem :=
  ⟨pyOptStr x, pyOptStr y, circle_radius, circle_sw, circle_fill⟩

/-- A child appended to the stroke group: a path or a marker circle. -/
inductive BaseChild where
  | path : PathElem → BaseChild
  | circ : CircleElem → BaseChild
deriving DecidableEq, Repr

/-- `id_base + '-s' + str(j) + '-' + str(cur_row) + '-' + str(cur_col)`. -/
def mkId (base : String) (j row col : ℕ) : String :=
  base ++ "-s" ++ toString j ++ "-" ++ toString row ++ "-" ++ toString col

/-- The inner loop `for j in range(i + 1)` of `make_diagram`: emit one
translated path element and one translated stroke-number text per `j`. -/
def panelPaths (g : Glyph) (row col : ℕ) : List ℕ → Except PyErr (List PathElem × List TextElem)
  | [] => .ok ([], [])
  | j :: js =>
    getIndex g.paths j >>= fun dj =>
      shift_path dj row col >>= fun r =>
        getIndex g.numbers j >>= fun tj =>
          shift_transform tj row col >>= fun mat =>
            panelPaths g row col js >>= fun pt =>
              .ok (⟨mkId g.id_base j row col, r.1⟩ :: pt.1, ⟨mat, toString j⟩ :: pt.2)

/-- One panel of the diagram: the `i + 1` translated paths, the marker circle
at the translated start point of stroke `i` (re-derived by a second
`shift_path` call, as in the source), and the stroke-number texts. -/
def panel (g : Glyph) (i row col : ℕ) : Except PyErr (List BaseChild × List TextElem) :=
  panelPaths g row col (List.range (i + 1)) >>= fun pt =>
    getIndex g.paths i >>= fun di =>
      shift_path di row col >>= fun r =>
        .ok (pt.1.map .path ++ [.circ (circle' r.2.1 r.2.2)], pt.2)

/-- The outer loop `for i in range(len(paths))` with the
`cur_row`/`cur_col` state, returning all children and the final state. -/
def diagLoop (g : Glyph) :
    List ℕ → ℕ → ℕ → Except PyErr (List BaseChild × List TextElem × ℕ × ℕ)
  | [], row, col => .ok ([], [], row, col)
  | i :: is, row, col =>
    panel g i row col >>= fun bt =>
      diagLoop g is (if col + 1 ≥ boxes_per_line then row + 1 else row)
          (if col + 1 ≥ boxes_per_line then 0 else col + 1) >>= fun rest =>
        .ok (bt.1 ++ rest.1, bt.2 ++ rest.2.1, rest.2.2)

/-- The output document: rebuilt children and the updated root attributes. -/
structure Diagram where
  baseChildren : List BaseChild
  snChildren : List TextElem
  width : String
  height : String
  viewBox : String
deriving Repr

/-- `make_diagram(kanji)`. -/
def make_diagram (g : Glyph) : Except PyErr Diagram :=
  diagLoop g (List.range g.paths.length) 0 0 >>= fun res =>
    .ok { baseChildren := res.1
          snChildren := res.2.1
          width := if res.2.2.1 = 0 then toString (kanjivg_width * (res.2.2.2 + 1))
                   else toString (kanjivg_width * boxes_per_line)
          height := toString (kanjivg_height * (res.2.2.1 + 1))
          viewBox := "0 0 " ++ toString (if res.2.2.1 = 0 then kanjivg_width * (res.2.2.2 + 1)
                       else kanjivg_width * boxes_per_line) ++ " " ++
                     toString (kanjivg_height * (res.2.2.1 + 1)) }

/-! ### The intended contents of the generated children -/

/-- The translated `d` attribute of stroke `j` in the panel at `(row, col)`
(meaningful whenever the corresponding `shift_path` call succeeded). -/
def pathD (g : Glyph) (j row col : ℕ) : String :=
  match g.paths[j]? with
  | some d =>
    match shift_path d row col with
    | .ok (d', _, _) => d'
    | .error _ => ""
  | none => ""

/-- The marker circle of the panel at `(row, col)` whose last stroke is `i`. -/
def circE (g : Glyph) (i row col : ℕ) : CircleElem :=
  match g.paths[i]? with
  | some d =>
    match shift_path d row col with
    | .ok (_, x, y) => circle' x y
    | .error _ => circle' none none
  | none => circle' none none

/-- The children one panel contributes to the stroke group. -/
def panelBlock (g : Glyph) (i row col : ℕ) : List BaseChild :=
  ((List.range (i + 1)).map fun j => .path ⟨mkId g.id_base j row col, pathD g j row col⟩) ++
    [.circ (circE g i row col)]

/-- The concatenated panel blocks, starting from linear panel counter `m`
(panel at counter `m` sits at row `m / boxes_per_line`, column
`m % boxes_per_line`). -/
def expectedChildren (g : Glyph) : List ℕ → ℕ → List BaseChild
  | [], _ => []
  | i :: is, m =>
    panelBlock g i (m / boxes_per_line) (m % boxes_per_line) ++ expectedChildren g is (m + 1)

/-- Is a stroke-group child a generated path element? -/
def isPathChild : BaseChild → Bool
  | .path _ => true
  | .circ _ => false

/-- Is a stroke-group child a marker circle? -/
def isCircChild : BaseChild → Bool
  | .path _ => false
  | .circ _ => true

theorem panelPaths_ok {g : Glyph} {row col : ℕ} :
    ∀ {js : List ℕ} {ps : List PathElem} {ts : List TextElem},
      panelPaths g row col js = .ok (ps, ts) →
      ps = js.map (fun j => ⟨mkId g.id_base j row col, pathD g j row col⟩) ∧
        ts.length = js.length := by
  intro js
  induction js with
  | nil =>
    intro ps ts h
    rw [panelPaths] at h
    simp only [Except.ok.injEq, Prod.mk.injEq] at h
    obtain ⟨rfl, rfl⟩ := h
    simp
  | cons j js ih =>
    intro ps ts h
    rw [panelPaths, bind_ok_iff] at h
    obtain ⟨dj, hp, h⟩ := h
    rw [bind_ok_iff] at h
    obtain ⟨⟨newd, fx, fy⟩, hs, h⟩ := h
    rw [bind_ok_iff] at h
    obtain ⟨tj, ht, h⟩ := h
    rw [bind_ok_iff] at h
    obtain ⟨mat, hm, h⟩ := h
    rw [bind_ok_iff] at h
    obtain ⟨pt, hrec, h⟩ := h
    obtain ⟨h1, h2⟩ := ih hrec
    simp only [Except.ok.injEq, Prod.mk.injEq] at h
    obtain ⟨rfl, rfl⟩ := h
    refine ⟨?_, by simp [h2]⟩
    rw [List.map_cons, h1]
    congr 1
    rw [getIndex_ok] at hp
    simp [pathD, hp, hs]

theorem panel_ok {g : Glyph} {i row col : ℕ} {bc : List BaseChild} {ts : List TextElem}
    (h : panel g i row col = .ok (bc, ts)) :
    bc = panelBlock g i row col ∧ ts.length = i + 1 := by
  rw [panel, bind_ok_iff] at h
  obtain ⟨pt, hpp, h⟩ := h
  rw [bind_ok_iff] at h
  obtain ⟨di, hp, h⟩ := h
  rw [bind_ok_iff] at h
  obtain ⟨⟨d', x, y⟩, hs, h⟩ := h
  obtain ⟨h1, h2⟩ := panelPaths_ok hpp
  simp only [Except.ok.injEq, Prod.mk.injEq] at h
  obtain ⟨rfl, rfl⟩ := h
  rw [getIndex_ok] at hp
  constructor
  · rw [panelBlock, h1, List.map_map]
    congr 1
    simp [circE, hp, hs]
  · simp [h2]

theorem diagLoop_ok {g : Glyph} :
    ∀ {js : List ℕ} {m : ℕ} {bc : List BaseChild} {ts : List TextElem} {er ec : ℕ},
      diagLoop g js (m / boxes_per_line) (m % boxes_per_line) = .ok (bc, ts, er, ec) →
      bc = expectedChildren g js m ∧ er = (m + js.length) / boxes_per_line ∧
        ec = (m + js.length) % boxes_per_line := by
  intro js
  induction js with
  | nil =>
    intro m bc ts er ec h
    rw [diagLoop] at h
    simp only [Except.ok.injEq, Prod.mk.injEq] at h
    obtain ⟨rfl, rfl, rfl, rfl⟩ := h
    simp [expectedChildren]
  | cons i is ih =>
    intro m bc ts er ec h
    rw [diagLoop, bind_ok_iff] at h
    obtain ⟨⟨bc₁, ts₁⟩, hpan, h⟩ := h
    rw [bind_ok_iff] at h
    obtain ⟨⟨bcs, tss, er', ec'⟩, hrec, h⟩ := h
    have hrow : (if m % boxes_per_line + 1 ≥ boxes_per_line then m / boxes_per_line + 1
        else m / boxes_per_line) = (m + 1) / boxes_per_line := by
      by_cases hcond : m % boxes_per_line + 1 ≥ boxes_per_line <;>
        simp only [boxes_per_line] at * <;> simp [hcond] <;> omega
    have hcol : (if m % boxes_per_line + 1 ≥ boxes_per_line then 0
        else m % boxes_per_line + 1) = (m + 1) % boxes_per_line := by
      by_cases hcond : m % boxes_per_line + 1 ≥ boxes_per_line <;>
        simp only [boxes_per_line] at * <;> simp [hcond] <;> omega
    rw [hrow, hcol] at hrec
    obtain ⟨h1, h2, h3⟩ := ih hrec
    simp only [Except.ok.injEq, Prod.mk.injEq] at h
    obtain ⟨rfl, rfl, rfl, rfl⟩ := h
    obtain ⟨hb, -⟩ := panel_ok hpan
    refine ⟨?_, ?_, ?_⟩
    · rw [expectedChildren, hb, h1]
    · rw [h2]
      have hlen : m + 1 + is.length = m + (i :: is).length := by
        simp only [List.length_cons]
        omega
      rw [hlen]
    · rw [h3]
      have hlen : m + 1 + is.length = m + (i :: is).length := by
        simp only [List.length_cons]
        omega
      rw [hlen]

/-- `expectedChildren` over a contiguous range starting at its own counter. -/
theorem expectedChildren_range' (g : Glyph) :
    ∀ (n s : ℕ), expectedChildren g (List.range' s n) s =
      ((List.range' s n).map fun i =>
        panelBlock g i (i / boxes_per_line) (i % boxes_per_line)).flatten := by
  intro n
  induction n with
  | zero => intro s; simp [expectedChildren]
  | succ n ih =>
    intro s
    rw [List.range'_succ, expectedChildren, ih (s + 1), List.map_cons, List.flatten_cons]

theorem expectedChildren_range (g : Glyph) (n : ℕ) :
    expectedChildren g (List.range n) 0 =
      ((List.range n).map fun i =>
        panelBlock g i (i / boxes_per_line) (i % boxes_per_line)).flatten := by
  rw [List.range_eq_range', expectedChildren_range']

/-! ## Error behaviour of `shift_path` -/

/-- `parseFloats` fails only with `ValueError`. -/
theorem parseFloats_error_iff {ts : List (List Char)} {e : PyErr} :
    parseFloats ts = .error e ↔ (ts.mapM parseFloat = none ∧ e = .valueError) := by
  rw [parseFloats]
  rcases hm : ts.mapM parseFloat with _ | vs <;> simp [eq_comm]

/-- Every exception `shift_path`'s per-match processing raises is a
`ValueError` (every `raise` in the source is `raise ValueError(d)`, and
`float` and tuple unpacking also raise `ValueError`). -/
theorem runStep_error {dx dy : ℚ} {h : Char} {p : List Char} {st : Option (ℚ × ℚ)} {e : PyErr}
    (he : runStep dx dy h p st = .error e) : e = .valueError := by
  rw [runStep] at he
  split_ifs at he
  · rcases hpf : parseFloats (splitChar ',' p) with e' | vs <;> rw [hpf] at he <;>
      simp only [Bind.bind, Except.bind] at he
    · cases he
      exact (parseFloats_error_iff.mp hpf).2
    · split_ifs at he <;> simp_all
  · rcases hpf : parseFloats (splitChar ',' p) with e' | vs <;> rw [hpf] at he <;>
      simp only [Bind.bind, Except.bind] at he
    · cases he
      exact (parseFloats_error_iff.mp hpf).2
    · split_ifs at he <;> simp_all
  · rcases hpf : parseFloats (splitChar ',' p) with e' | vs <;> rw [hpf] at he <;>
      simp only [Bind.bind, Except.bind] at he
    · cases he
      exact (parseFloats_error_iff.mp hpf).2
    · split_ifs at he <;> simp_all
  · simp_all

/-- An unsupported (uppercase) command letter raises `ValueError`. -/
theorem runStep_bad_letter {dx dy : ℚ} {h : Char} (p : List Char) (st : Option (ℚ × ℚ))
    (h1 : h ≠ 'M') (h2 : h ≠ 'C') (h3 : h ≠ 'S') :
    runStep dx dy h p st = .error .valueError := by
  simp [runStep, h1, h2, h3]

theorem mapM_parseFloat_length :
    ∀ {ts : List (List Char)} {vs : List ℚ}, ts.mapM parseFloat = some vs →
      vs.length = ts.length := by
  intro ts
  induction ts with
  | nil =>
    intro vs h
    simp only [List.mapM_nil, Option.pure_def, Option.some.injEq] at h
    simp [← h]
  | cons t ts ih =>
    intro vs h
    simp only [List.mapM_cons, Option.pure_def, Option.bind_eq_bind, Option.bind_eq_some,
      Option.some.injEq] at h
    obtain ⟨v, hv, vs', hvs', rfl⟩ := h
    simp [ih hvs']

/-- A `C` run whose comma payload does not have a multiple of 6 tokens raises
`ValueError` (either at `float` or at the count check). -/
theorem runStep_bad_C {dx dy : ℚ} {p : List Char} (st : Option (ℚ × ℚ))
    (hc : (splitChar ',' p).length % 6 ≠ 0) :
    runStep dx dy 'C' p st = .error .valueError := by
  rw [runStep, if_neg (show ¬('C' : Char) = 'M' by decide), if_pos rfl]
  rcases hpf : parseFloats (splitChar ',' p) with e' | vs <;>
    simp only [Bind.bind, Except.bind]
  · rw [(parseFloats_error_iff.mp hpf).2]
  · have := mapM_parseFloat_length (parseFloats_ok.mp hpf)
    simp [this, hc]

/-- An `S` run whose comma payload does not have a multiple of 4 tokens raises
`ValueError`. -/
theorem runStep_bad_S {dx dy : ℚ} {p : List Char} (st : Option (ℚ × ℚ))
    (hc : (splitChar ',' p).length % 4 ≠ 0) :
    runStep dx dy 'S' p st = .error .valueError := by
  rw [runStep, if_neg (show ¬('S' : Char) = 'M' by decide),
    if_neg (show ¬('S' : Char) = 'C' by decide), if_pos rfl]
  rcases hpf : parseFloats (splitChar ',' p) with e' | vs <;>
    simp only [Bind.bind, Except.bind]
  · rw [(parseFloats_error_iff.mp hpf).2]
  · have := mapM_parseFloat_length (parseFloats_ok.mp hpf)
    simp [this, hc]

/-- Any exception out of the match loop is a `ValueError`. -/
theorem goToks_error {dx dy : ℚ} :
    ∀ {ts : List Tok} {st : Option (ℚ × ℚ)} {e : PyErr},
      goToks dx dy ts st = .error e → e = .valueError := by
  intro ts
  induction ts with
  | nil =>
    intro st e h
    rw [goToks] at h
    exact Except.noConfusion h
  | cons t ts ih =>
    intro st e h
    cases t with
    | gap c =>
      rw [goToks] at h
      rcases hg : goToks dx dy ts st with e' | r <;> rw [hg] at h <;>
        simp only [Bind.bind, Except.bind] at h
      · cases h
        exact ih hg
      · exact Except.noConfusion h
    | run hd p =>
      rw [goToks] at h
      rcases hr : runStep dx dy hd p st with e' | t' <;> rw [hr] at h <;>
        simp only [Bind.bind, Except.bind] at h
      · cases h
        exact runStep_error hr
      · rcases hg : goToks dx dy ts t'.2 with e' | r <;> rw [hg] at h <;>
          simp only [Bind.bind, Except.bind] at h
        · cases h
          exact ih hg
        · exact Except.noConfusion h

/-- If some match in the list fails (for any state), the whole loop raises
`ValueError`. -/
theorem goToks_mem_bad {dx dy : ℚ} {h : Char} {p : List Char} :
    ∀ {ts : List Tok} {st : Option (ℚ × ℚ)},
      Tok.run h p ∈ ts →
      (∀ st', runStep dx dy h p st' = .error .valueError) →
      goToks dx dy ts st = .error .valueError := by
  intro ts
  induction ts with
  | nil =>
    intro st hm _
    exact absurd hm (List.not_mem_nil _)
  | cons t ts ih =>
    intro st hm hbad
    rcases List.mem_cons.mp hm with rfl | hmem
    · rw [goToks, hbad st]
      rfl
    · cases t with
      | gap c =>
        rw [goToks, ih hmem hbad]
        rfl
      | run hd pd =>
        rw [goToks]
        rcases hr : runStep dx dy hd pd st with e' | t'
        · simp only [Bind.bind, Except.bind]
          rw [runStep_error hr]
        · simp only [Bind.bind, Except.bind]
          rw [ih hmem hbad]

/-- A failing loop makes `shift_path` fail with the same exception. -/
theorem shift_path_error_iff {d : String} {row col : ℕ} {e : PyErr} :
    shift_path d row col = .error e ↔
      goToks ((col * kanjivg_width : ℕ) : ℚ) ((row * kanjivg_height : ℕ) : ℚ)
        (tokenize d.data) none = .error e := by
  rw [shift_path]
  rcases hg : goToks ((col * kanjivg_width : ℕ) : ℚ) ((row * kanjivg_height : ℕ) : ℚ)
      (tokenize d.data) none with e' | r <;> simp [Bind.bind, Except.bind, hg]

/-! ## The first-M state -/

/-- `if first_x is None` -- once set, the start point is never overwritten. -/
theorem runStep_preserves_some {dx dy : ℚ} {h : Char} {p : List Char} {v : ℚ × ℚ}
    {t : Tok} {st' : Option (ℚ × ℚ)}
    (hok : runStep dx dy h p (some v) = .ok (t, st')) : st' = some v := by
  rw [runStep] at hok
  split_ifs at hok <;>
  first
  | exact Except.noConfusion hok
  | (rcases hpf : parseFloats (splitChar ',' p) with e' | vs <;> rw [hpf] at hok <;>
      simp only [Bind.bind, Except.bind] at hok <;>
    first
    | exact Except.noConfusion hok
    | (split_ifs at hok <;>
      first
      | exact Except.noConfusion hok
      | (simp only [Except.ok.injEq, Prod.mk.injEq, Option.getD_some] at hok
         exact hok.2.symm)))

theorem goToks_some_state {dx dy : ℚ} :
    ∀ {ts : List Tok} {v : ℚ × ℚ} {rs : List Tok} {st' : Option (ℚ × ℚ)},
      goToks dx dy ts (some v) = .ok (rs, st') → st' = some v := by
  intro ts
  induction ts with
  | nil =>
    intro v rs st' h
    rw [goToks] at h
    simp only [Except.ok.injEq, Prod.mk.injEq] at h
    exact h.2.symm
  | cons t ts ih =>
    intro v rs st' h
    cases t with
    | gap c =>
      rw [goToks, bind_ok_iff] at h
      obtain ⟨r, hr, hfin⟩ := h
      simp only [Except.ok.injEq, Prod.mk.injEq] at hfin
      obtain ⟨-, rfl⟩ := hfin
      exact ih hr
    | run hd pd =>
      rw [goToks, bind_ok_iff] at h
      obtain ⟨t', ht', h⟩ := h
      rw [bind_ok_iff] at h
      obtain ⟨r, hr, hfin⟩ := h
      simp only [Except.ok.injEq, Prod.mk.injEq] at hfin
      obtain ⟨-, rfl⟩ := hfin
      obtain ⟨t'', st''⟩ := t'
      rw [runStep_preserves_some ht'] at hr
      exact ih hr

/-- A successful loop over a prefix of unmatched characters reduces to the
loop over the rest with the same state. -/
theorem goToks_gaps {dx dy : ℚ} :
    ∀ {gs : List Char} {ts : List Tok} {st : Option (ℚ × ℚ)} {rs : List Tok}
      {st' : Option (ℚ × ℚ)},
      goToks dx dy (gs.map Tok.gap ++ ts) st = .ok (rs, st') →
      ∃ rs', goToks dx dy ts st = .ok (rs', st') := by
  intro gs
  induction gs with
  | nil =>
    intro ts st rs st' h
    exact ⟨rs, by simpa using h⟩
  | cons g gs ih =>
    intro ts st rs st' h
    rw [List.map_cons, List.cons_append, goToks, bind_ok_iff] at h
    obtain ⟨r, hr, hfin⟩ := h
    simp only [Except.ok.injEq, Prod.mk.injEq] at hfin
    obtain ⟨-, rfl⟩ := hfin
    exact ih hr

/-! ## Paths with no `M` and only well-formed `C`/`S` runs -/

/-- A scanner token that is unmatched text or a well-formed `C`/`S` run. -/
def noMWfTok : Tok → Bool
  | .gap _ => true
  | .run h p =>
    (h == 'C' && ((splitChar ',' p).mapM parseFloat).isSome &&
      (splitChar ',' p).length % 6 == 0) ||
    (h == 'S' && ((splitChar ',' p).mapM parseFloat).isSome &&
      (splitChar ',' p).length % 4 == 0)

/-- A well-formed `C` run is rewritten without touching the state. -/
theorem runStep_C_ok {dx dy : ℚ} {p : List Char} {vs : List ℚ} (st : Option (ℚ × ℚ))
    (hvs : (splitChar ',' p).mapM parseFloat = some vs) (hlen : vs.length % 6 = 0) :
    runStep dx dy 'C' p st = .ok (.run 'C' (renderC (shiftAlt dx dy vs)), st) := by
  rw [runStep, if_neg (show ¬('C' : Char) = 'M' by decide), if_pos rfl,
    parseFloats_ok.mpr hvs]
  simp [Bind.bind, Except.bind, hlen]

/-- A well-formed `S` run is rewritten without touching the state. -/
theorem runStep_S_ok {dx dy : ℚ} {p : List Char} {vs : List ℚ} (st : Option (ℚ × ℚ))
    (hvs : (splitChar ',' p).mapM parseFloat = some vs) (hlen : vs.length % 4 = 0) :
    runStep dx dy 'S' p st = .ok (.run 'S' (renderS (shiftAlt dx dy vs)), st) := by
  rw [runStep, if_neg (show ¬('S' : Char) = 'M' by decide),
    if_neg (show ¬('S' : Char) = 'C' by decide), if_pos rfl, parseFloats_ok.mpr hvs]
  simp [Bind.bind, Except.bind, hlen]

/-- A list of gaps and well-formed `C`/`S` runs is processed successfully and
never sets the start point. -/
theorem goToks_noMwf {dx dy : ℚ} :
    ∀ {ts : List Tok}, (∀ tok ∈ ts, noMWfTok tok = true) →
      ∀ st, ∃ rs, goToks dx dy ts st = .ok (rs, st) := by
  intro ts
  induction ts with
  | nil =>
    intro _ st
    exact ⟨[], rfl⟩
  | cons t ts ih =>
    intro hwf st
    have hwt := hwf t (by simp)
    obtain ⟨rs, hrs⟩ := ih (fun x hx => hwf x (by simp [hx])) st
    cases t with
    | gap c =>
      refine ⟨.gap c :: rs, ?_⟩
      rw [goToks, hrs]
      rfl
    | run hd pd =>
      simp only [noMWfTok, Bool.or_eq_true, Bool.and_eq_true, beq_iff_eq,
        Option.isSome_iff_exists] at hwt
      rcases hwt with ⟨⟨rfl, vs, hvs⟩, hlen⟩ | ⟨⟨rfl, vs, hvs⟩, hlen⟩
      · have hl6 : vs.length % 6 = 0 := by
          have := mapM_parseFloat_length hvs
          omega
        refine ⟨.run 'C' (renderC (shiftAlt dx dy vs)) :: rs, ?_⟩
        rw [goToks, runStep_C_ok st hvs hl6]
        simp only [Bind.bind, Except.bind]
        rw [hrs]
      · have hl4 : vs.length % 4 = 0 := by
          have := mapM_parseFloat_length hvs
          omega
        refine ⟨.run 'S' (renderS (shiftAlt dx dy vs)) :: rs, ?_⟩
        rw [goToks, runStep_S_ok st hvs hl4]
        simp only [Bind.bind, Except.bind]
        rw [hrs]

/-! ## The claims -/

/-- C3: on the transform string `matrix(1 0 0 1 5)` (five space-separated
tokens), `shift_transform` reads `parts[5]` without a length check and so
raises `IndexError`, which the batch handler's `except ValueError` does not
catch: the run aborts instead of skipping the glyph, contradicting the
claimed `MalformedTransform` (= catchable `ValueError`) failure. -/
theorem c3_indexError_uncaught :
    shift_transform "matrix(1 0 0 1 5)" 0 0 = .error .indexError ∧
      caughtByBatch .indexError = false ∧ caughtByBatch .valueError = true :=
  ⟨by with_unfolding_all rfl, rfl, rfl⟩

/-- C4 (counterexample): the claim includes lowercase command letters such as
`z`, but `caps_re` only matches `[A-Z]`, so `shift_path('z10,20', ...)` does
not fail at all: it returns the string untouched with no start point. -/
theorem c4_lowercase_not_rejected :
    shift_path "z10,20" 0 0 = .ok ("z10,20", none, none) ∧
      shift_path "z10,20" 0 0 ≠ .error .valueError := by
  have h : shift_path "z10,20" 0 0 = .ok ("z10,20", none, none) := by
    with_unfolding_all rfl
  exact ⟨h, by rw [h]; exact fun hc => Except.noConfusion hc⟩

/-- C4 (amended): whenever an **uppercase** command letter other than `M`,
`C`, `S` introduces a regex match of the path string, `shift_path` fails with
`ValueError` (the `MalformedPath` error); lowercase letters are never matched
as command letters and pass through unmodified. -/
theorem c4_unsupported_letter_fails (d : String) (row col : ℕ) (h : Char) (p : List Char)
    (hmem : Tok.run h p ∈ tokenize d.data)
    (h1 : h ≠ 'M') (h2 : h ≠ 'C') (h3 : h ≠ 'S') :
    shift_path d row col = .error .valueError := by
  rw [shift_path_error_iff]
  exact goToks_mem_bad hmem (fun st' => runStep_bad_letter p st' h1 h2 h3)

/-- C4 (witness): `Z10,20` is rejected with `ValueError`. -/
theorem c4_unsupported_letter_fails_witness :
    shift_path "Z10,20" 0 0 = .error .valueError := by
  have hm : Tok.run 'Z' "10,20".data ∈ tokenize "Z10,20".data := by
    with_unfolding_all decide
  exact c4_unsupported_letter_fails "Z10,20" 0 0 'Z' "10,20".data hm
    (by decide) (by decide) (by decide)

/-- C7: a `C` run whose comma-separated payload token count is not a
(positive) multiple of 6, or an `S` run whose token count is not a multiple
of 4, makes `shift_path` fail with `ValueError` (`str.split` never yields an
empty token list, so "positive" is automatic). -/
theorem c7_bad_group_count_fails (d : String) (row col : ℕ) (p : List Char)
    (hmem : (Tok.run 'C' p ∈ tokenize d.data ∧ (splitChar ',' p).length % 6 ≠ 0) ∨
      (Tok.run 'S' p ∈ tokenize d.data ∧ (splitChar ',' p).length % 4 ≠ 0)) :
    shift_path d row col = .error .valueError := by
  rw [shift_path_error_iff]
  rcases hmem with ⟨hm, hc⟩ | ⟨hm, hc⟩
  · exact goToks_mem_bad hm (fun st' => runStep_bad_C st' hc)
  · exact goToks_mem_bad hm (fun st' => runStep_bad_S st' hc)

/-- C7 (witness): a cubic command with 5 trailing numbers is rejected. -/
theorem c7_bad_group_count_fails_witness :
    shift_path "C1,2,3,4,5" 0 0 = .error .valueError := by
  have hm : Tok.run 'C' "1,2,3,4,5".data ∈ tokenize "C1,2,3,4,5".data := by
    with_unfolding_all decide
  have hc : (splitChar ',' "1,2,3,4,5".data).length % 6 ≠ 0 := by
    with_unfolding_all decide
  exact c7_bad_group_count_fails "C1,2,3,4,5" 0 0 "1,2,3,4,5".data (Or.inl ⟨hm, hc⟩)

/-- C5: if the first regex match of the path string is an `M` run with
payload `x,y`, then a successful `shift_path` reports the start point
`(x + col * kanjivg_width, y + row * kanjivg_height)`; later `M` runs never
overwrite it, whatever else the path contains. -/
theorem c5_first_M_sets_start (d : String) (row col : ℕ) (gs : List Char) (p : List Char)
    (rest : List Tok) (out : String) (fx fy : Option ℚ) (x y : ℚ)
    (htok : tokenize d.data = gs.map Tok.gap ++ Tok.run 'M' p :: rest)
    (hp : (splitChar ',' p).mapM parseFloat = some [x, y])
    (hok : shift_path d row col = .ok (out, fx, fy)) :
    fx = some (x + ((col * kanjivg_width : ℕ) : ℚ)) ∧
      fy = some (y + ((row * kanjivg_height : ℕ) : ℚ)) := by
  rw [shift_path, bind_ok_iff] at hok
  obtain ⟨⟨ts', st⟩, hgo, hfin⟩ := hok
  simp only [Except.ok.injEq, Prod.mk.injEq] at hfin
  obtain ⟨-, hfx, hfy⟩ := hfin
  rw [htok] at hgo
  obtain ⟨rs', hgo'⟩ := goToks_gaps hgo
  rw [goToks, bind_ok_iff] at hgo'
  obtain ⟨⟨t1, st1⟩, hstep, hcont⟩ := hgo'
  rw [bind_ok_iff] at hcont
  obtain ⟨⟨rs2, st2⟩, hgo2, hfin2⟩ := hcont
  simp only [Except.ok.injEq, Prod.mk.injEq] at hfin2
  obtain ⟨-, rfl⟩ := hfin2
  rw [runStep, if_pos rfl, parseFloats_ok.mpr hp] at hstep
  simp only [Bind.bind, Except.bind] at hstep
  rw [dif_pos (show ([x, y] : List ℚ).length = 2 from rfl)] at hstep
  simp only [Except.ok.injEq, Prod.mk.injEq, Option.getD_none, List.getElem_cons_zero,
    List.getElem_cons_succ] at hstep
  obtain ⟨-, hst1⟩ := hstep
  subst hst1
  have hst2 := goToks_some_state hgo2
  subst hst2
  simp only [Option.map_some'] at hfx hfy
  exact ⟨hfx.symm, hfy.symm⟩

/-- C5 (witness): `M10,20M30,40` shifted by row 1, col 2: the start point is
that of the first `M`, `(10 + 2*109, 20 + 1*109)`; the second `M` does not
overwrite it. -/
theorem c5_first_M_sets_start_witness :
    shift_path "M10,20M30,40" 1 2 = .ok ("M228.0,129.0M248.0,149.0", some 228, some 129) ∧
      (some (228 : ℚ), some (129 : ℚ)) =
        (some ((10 : ℚ) + ((2 * kanjivg_width : ℕ) : ℚ)),
          some ((20 : ℚ) + ((1 * kanjivg_height : ℕ) : ℚ))) := by
  have hok : shift_path "M10,20M30,40" 1 2 =
      .ok ("M228.0,129.0M248.0,149.0", some 228, some 129) := by
    with_unfolding_all rfl
  have htok : tokenize "M10,20M30,40".data =
      ([] : List Char).map Tok.gap ++ Tok.run 'M' "10,20".data ::
        [Tok.run 'M' "30,40".data] := by
    with_unfolding_all decide
  have hp : (splitChar ',' "10,20".data).mapM parseFloat = some [10, 20] := by
    with_unfolding_all rfl
  obtain ⟨h1, h2⟩ := c5_first_M_sets_start "M10,20M30,40" 1 2 [] "10,20".data
    [Tok.run 'M' "30,40".data] "M228.0,129.0M248.0,149.0" (some 228) (some 129) 10 20
    htok hp hok
  exact ⟨hok, by rw [← h1, ← h2]⟩

/-- C10: a path string with no `M` run and only well-formed `C`/`S` runs is
not rejected: `shift_path` succeeds with `None` start-point coordinates, and
`make_diagram` then emits the panel's marker circle with the non-numeric
`cx`/`cy` value `'None'`. -/
theorem c10_no_M_gives_None_circle (d t b : String) (row col : ℕ) (mt : String)
    (hwf : ∀ tok ∈ tokenize d.data, noMWfTok tok = true)
    (ht : shift_transform t 0 0 = .ok mt) :
    (∃ out, shift_path d row col = .ok (out, none, none)) ∧
    (∃ dg, make_diagram ⟨b, [d], [t]⟩ = .ok dg ∧
      dg.baseChildren.filter isCircChild = [.circ (circle' none none)] ∧
      (circle' none none).cx = "None" ∧ (circle' none none).cy = "None") := by
  obtain ⟨rs, hrs⟩ := @goToks_noMwf ((col * kanjivg_width : ℕ) : ℚ)
    ((row * kanjivg_height : ℕ) : ℚ) _ hwf none
  obtain ⟨rs0, hrs0⟩ := @goToks_noMwf ((0 * kanjivg_width : ℕ) : ℚ)
    ((0 * kanjivg_height : ℕ) : ℚ) _ hwf none
  have hsp0 : shift_path d 0 0 = .ok (⟨renderToks rs0⟩, none, none) := by
    rw [shift_path, hrs0]
    rfl
  refine ⟨⟨⟨renderToks rs⟩, by rw [shift_path, hrs]; rfl⟩, ?_⟩
  refine ⟨⟨[.path ⟨mkId b 0 0 0, ⟨renderToks rs0⟩⟩, .circ (circle' none none)],
    [⟨mt, toString 0⟩], toString (kanjivg_width * (1 + 1)),
    toString (kanjivg_height * (0 + 1)),
    "0 0 " ++ toString (kanjivg_width * (1 + 1)) ++ " " ++
      toString (kanjivg_height * (0 + 1))⟩, ?_, rfl, rfl, rfl⟩
  have h1 : panelPaths ⟨b, [d], [t]⟩ 0 0 [0] =
      .ok ([⟨mkId b 0 0 0, ⟨renderToks rs0⟩⟩], [⟨mt, toString 0⟩]) := by
    rw [panelPaths, show getIndex (Glyph.mk b [d] [t]).paths 0 = .ok d from rfl]
    simp only [Bind.bind, Except.bind]
    rw [hsp0, show getIndex (Glyph.mk b [d] [t]).numbers 0 = .ok t from rfl]
    simp only [Bind.bind, Except.bind]
    rw [ht, panelPaths]
  have h2 : panel ⟨b, [d], [t]⟩ 0 0 0 =
      .ok ([.path ⟨mkId b 0 0 0, ⟨renderToks rs0⟩⟩, .circ (circle' none none)],
        [⟨mt, toString 0⟩]) := by
    rw [panel, show List.range (0 + 1) = [0] from rfl, h1]
    simp only [Bind.bind, Except.bind]
    rw [show getIndex (Glyph.mk b [d] [t]).paths 0 = .ok d from rfl]
    simp only [Bind.bind, Except.bind]
    rw [hsp0]
    rfl
  have h3 : diagLoop ⟨b, [d], [t]⟩ [0] 0 0 =
      .ok ([.path ⟨mkId b 0 0 0, ⟨renderToks rs0⟩⟩, .circ (circle' none none)],
        [⟨mt, toString 0⟩], 0, 1) := by
    rw [diagLoop, h2]
    simp only [Bind.bind, Except.bind]
    rw [show (if 0 + 1 ≥ boxes_per_line then 0 + 1 else 0) = 0 from rfl,
      show (if 0 + 1 ≥ boxes_per_line then 0 else 0 + 1) = 1 from rfl, diagLoop]
    rfl
  rw [make_diagram, show List.range (Glyph.mk b [d] [t]).paths.length = [0] from rfl, h3]
  rfl

/-- C10 (witness): the M-less path `C1,2,3,4,5,6` is accepted and yields a
`'None'`/`'None'` marker circle. -/
theorem c10_no_M_gives_None_circle_witness :
    (∃ out, shift_path "C1,2,3,4,5,6" 0 0 = .ok (out, none, none)) ∧
    (∃ dg, make_diagram ⟨"k", ["C1,2,3,4,5,6"], ["matrix(1 0 0 1 3 4)"]⟩ = .ok dg ∧
      dg.baseChildren.filter isCircChild = [.circ (circle' none none)] ∧
      (circle' none none).cx = "None" ∧ (circle' none none).cy = "None") := by
  have hwf : ∀ tok ∈ tokenize "C1,2,3,4,5,6".data, noMWfTok tok = true := by
    with_unfolding_all decide
  have ht : shift_transform "matrix(1 0 0 1 3 4)" 0 0 = .ok "matrix(1 0 0 1 3.00 4.00)" := by
    with_unfolding_all rfl
  exact c10_no_M_gives_None_circle "C1,2,3,4,5,6" "matrix(1 0 0 1 3 4)" "k" 0 0 _ hwf ht

/-! ## Characters of numeric tokens -/

theorem parseSign_plus (t : List Char) : parseSign ('+' :: t) = (1, t) := rfl

theorem parseUnsigned_chars {cs : List Char} {v : ℚ} (h : parseUnsigned cs = some v) :
    ∀ c ∈ cs, isDigitC c = true ∨ c = '.' := by
  intro c hc
  by_cases h1 : cs.dropWhile isDigitC = []
  · have hcs : cs = cs.takeWhile isDigitC := by
      conv_lhs => rw [← List.takeWhile_append_dropWhile (p := isDigitC) (l := cs)]
      rw [h1, List.append_nil]
    exact Or.inl (List.mem_takeWhile_imp (hcs ▸ hc))
  · rw [parseUnsigned, if_neg h1] at h
    by_cases h3 : (cs.dropWhile isDigitC).head? = some '.'
    · rw [if_pos h3] at h
      split_ifs at h with h4
      · obtain ⟨h4a, -⟩ := h4
        have hsplit := List.takeWhile_append_dropWhile (p := isDigitC) (l := cs)
        rw [← hsplit] at hc
        rcases List.mem_append.mp hc with hm | hm
        · exact Or.inl (List.mem_takeWhile_imp hm)
        · obtain ⟨dh, t, hdt⟩ : ∃ dh t, cs.dropWhile isDigitC = dh :: t := by
            rcases hdd : cs.dropWhile isDigitC with _ | ⟨dh, t⟩
            · exact absurd hdd h1
            · exact ⟨dh, t, rfl⟩
          have hd' : dh = '.' := by
            rw [hdt] at h3
            simpa using h3
          rw [hdt] at hm
          rcases List.mem_cons.mp hm with rfl | hm
          · exact Or.inr hd'
          · have h4a' : t.dropWhile isDigitC = [] := by
              rw [hdt] at h4a
              exact h4a
            have ht : t = t.takeWhile isDigitC := by
              conv_lhs => rw [← List.takeWhile_append_dropWhile (p := isDigitC) (l := t)]
              rw [h4a', List.append_nil]
            exact Or.inl (List.mem_takeWhile_imp (ht ▸ hm))
    · rw [if_neg h3] at h
      simp at h

theorem parseFloat_chars {cs : List Char} {v : ℚ} (h : parseFloat cs = some v) :
    ∀ c ∈ cs, isDigitC c = true ∨ c = '.' ∨ c = '-' ∨ c = '+' := by
  intro c hc
  cases cs with
  | nil => cases hc
  | cons c0 rest =>
    by_cases h0 : c0 = '-'
    · subst h0
      rw [parseFloat, parseSign_neg] at h
      rcases hu : parseUnsigned rest with _ | u <;> rw [hu] at h
      · simp at h
      · rcases List.mem_cons.mp hc with rfl | hm
        · exact Or.inr (Or.inr (Or.inl rfl))
        · rcases parseUnsigned_chars hu c hm with hd | hd
          · exact Or.inl hd
          · exact Or.inr (Or.inl hd)
    · by_cases h0' : c0 = '+'
      · subst h0'
        rw [parseFloat, parseSign_plus] at h
        rcases hu : parseUnsigned rest with _ | u <;> rw [hu] at h
        · simp at h
        · rcases List.mem_cons.mp hc with rfl | hm
          · exact Or.inr (Or.inr (Or.inr rfl))
          · rcases parseUnsigned_chars hu c hm with hd | hd
            · exact Or.inl hd
            · exact Or.inr (Or.inl hd)
      · rw [parseFloat, parseSign_other rest h0 h0'] at h
        rcases hu : parseUnsigned (c0 :: rest) with _ | u <;> rw [hu] at h
        · simp at h
        · rcases parseUnsigned_chars hu c hc with hd | hd
          · exact Or.inl hd
          · exact Or.inr (Or.inl hd)

/-- A numeric token contains no space. -/
theorem parseFloat_no_space {cs : List Char} {v : ℚ} (h : parseFloat cs = some v) :
    ∀ c ∈ cs, c ≠ ' ' := by
  intro c hc
  rcases parseFloat_chars h c hc with hd | hd | hd | hd
  · intro he
    subst he
    exact absurd hd (by decide)
  all_goals subst hd
  all_goals decide

/-- C6: on a well-formed 6-component transform string, `shift_transform`
returns exactly `matrix(1 0 0 1 {e'} {f'})` with `e' = e + col * cell_width`
and `f' = f + row * cell_height` (`kanjivg_width = kanjivg_height = 109`, so
what the source literally computes, `f + row * kanjivg_width`, is the same
value) -- both rendered by `fmt2`, i.e. to exactly 2 decimal places, and
whatever `a b c d` were, they are replaced by `1 0 0 1`. -/
theorem c6_transform_rewrite (ta tb tc td te tf : String) (a b c d e f : ℚ) (row col : ℕ)
    (ha : parseFloat ta.data = some a) (hb : parseFloat tb.data = some b)
    (hc : parseFloat tc.data = some c) (hd : parseFloat td.data = some d)
    (he : parseFloat te.data = some e) (hf : parseFloat tf.data = some f) :
    shift_transform ("matrix(" ++ ta ++ " " ++ tb ++ " " ++ tc ++ " " ++ td ++ " " ++ te ++
        " " ++ tf ++ ")") row col =
      .ok ("matrix(1 0 0 1 " ++ (⟨fmt2 (e + ((col * kanjivg_width : ℕ) : ℚ))⟩ : String) ++
        " " ++ (⟨fmt2 (f + ((row * kanjivg_height : ℕ) : ℚ))⟩ : String) ++ ")") := by
  have hdata : ("matrix(" ++ ta ++ " " ++ tb ++ " " ++ tc ++ " " ++ td ++ " " ++ te ++
      " " ++ tf ++ ")" : String).data =
      "matrix(".data ++ ((ta.data ++ ' ' :: (tb.data ++ ' ' :: (tc.data ++ ' ' ::
        (td.data ++ ' ' :: (te.data ++ ' ' :: tf.data))))) ++ [')']) := by
    simp only [String.data_append, show (" " : String).data = [' '] from rfl,
      show (")" : String).data = [')'] from rfl, List.append_assoc, List.cons_append,
      List.nil_append, List.singleton_append]
  have hdrop : (("matrix(" ++ ta ++ " " ++ tb ++ " " ++ tc ++ " " ++ td ++ " " ++ te ++
      " " ++ tf ++ ")" : String).data.drop 7).dropLast =
      ta.data ++ ' ' :: (tb.data ++ ' ' :: (tc.data ++ ' ' ::
        (td.data ++ ' ' :: (te.data ++ ' ' :: tf.data)))) := by
    rw [hdata, List.drop_left' (show ("matrix(".data : List Char).length = 7 from rfl),
      List.dropLast_concat]
  have hsplit : splitChar ' ' (ta.data ++ ' ' :: (tb.data ++ ' ' :: (tc.data ++ ' ' ::
      (td.data ++ ' ' :: (te.data ++ ' ' :: tf.data))))) =
      [ta.data, tb.data, tc.data, td.data, te.data, tf.data] := by
    rw [splitChar_append _ (parseFloat_no_space ha), splitChar_append _ (parseFloat_no_space hb),
      splitChar_append _ (parseFloat_no_space hc), splitChar_append _ (parseFloat_no_space hd),
      splitChar_append _ (parseFloat_no_space he), splitChar_eq_self (parseFloat_no_space hf)]
  rw [shift_transform]
  simp only [Bind.bind]
  rw [hdrop, hsplit, show getIndex [ta.data, tb.data, tc.data, td.data, te.data, tf.data] 4 =
    .ok te.data from rfl]
  simp only [Except.bind]
  rw [toFloat_ok.mpr he]
  simp only [Except.bind]
  rw [show getIndex [ta.data, tb.data, tc.data, td.data, te.data, tf.data] 5 =
    .ok tf.data from rfl]
  simp only [Except.bind]
  rw [toFloat_ok.mpr hf]
  rfl

/-- C6 (witness): `matrix(1 0 0 1 20 30)` shifted by row 1, col 2 becomes
`matrix(1 0 0 1 238.00 139.00)`. -/
theorem c6_transform_rewrite_witness :
    shift_transform "matrix(1 0 0 1 20 30)" 1 2 = .ok "matrix(1 0 0 1 238.00 139.00)" := by
  have h := c6_transform_rewrite "1" "0" "0" "1" "20" "30" 1 0 0 1 20 30 1 2
    (by with_unfolding_all rfl) (by with_unfolding_all rfl) (by with_unfolding_all rfl)
    (by with_unfolding_all rfl) (by with_unfolding_all rfl) (by with_unfolding_all rfl)
  rw [show ("matrix(" ++ "1" ++ " " ++ "0" ++ " " ++ "0" ++ " " ++ "1" ++ " " ++ "20" ++
    " " ++ "30" ++ ")" : String) = "matrix(1 0 0 1 20 30)" from by with_unfolding_all rfl] at h
  rw [h]
  with_unfolding_all rfl

/-! ## Counting the generated elements -/

theorem countP_path_panelBlock (g : Glyph) (i r c : ℕ) :
    (panelBlock g i r c).countP isPathChild = i + 1 := by
  rw [panelBlock, List.countP_append]
  have h1 : ((List.range (i + 1)).map fun j =>
      BaseChild.path ⟨mkId g.id_base j r c, pathD g j r c⟩).countP isPathChild =
      i + 1 := by
    rw [List.countP_eq_length.mpr, List.length_map, List.length_range]
    intro a ha
    obtain ⟨j, -, rfl⟩ := List.mem_map.mp ha
    rfl
  rw [h1]
  rfl

theorem countP_circ_panelBlock (g : Glyph) (i r c : ℕ) :
    (panelBlock g i r c).countP isCircChild = 1 := by
  rw [panelBlock, List.countP_append]
  have h1 : ((List.range (i + 1)).map fun j =>
      BaseChild.path ⟨mkId g.id_base j r c, pathD g j r c⟩).countP isCircChild = 0 := by
    rw [List.countP_eq_zero]
    intro a ha
    obtain ⟨j, -, rfl⟩ := List.mem_map.mp ha
    simp [isCircChild]
  rw [h1]
  rfl

theorem countP_flatten {α : Type} (p : α → Bool) :
    ∀ L : List (List α), L.flatten.countP p = (L.map (List.countP p)).sum := by
  intro L
  induction L with
  | nil => rfl
  | cons l L ih => simp [List.flatten_cons, List.countP_append, ih]

theorem sum_map_succ_range_two :
    ∀ n : ℕ, 2 * ((List.range n).map fun i => i + 1).sum = n * (n + 1) := by
  intro n
  induction n with
  | zero => rfl
  | succ n ih =>
    rw [List.range_succ, List.map_append, List.sum_append]
    simp only [List.map_cons, List.map_nil, List.sum_cons, List.sum_nil]
    have hdist : 2 * (((List.range n).map fun i => i + 1).sum + (n + 1 + 0)) =
        2 * ((List.range n).map fun i => i + 1).sum + 2 * (n + 1) := by ring
    rw [hdist, ih]
    ring

theorem sum_map_succ_range :
    ∀ n : ℕ, ((List.range n).map fun i => i + 1).sum = n * (n + 1) / 2 := by
  intro n
  have h := sum_map_succ_range_two n
  omega

/-- C2: a glyph with `N` stroke paths yields exactly the `N` panel blocks in
order (panel `i` contributing the `i + 1` translated paths, whose ids are
`{base_id}-s{j}-{row}-{col}`, and exactly one marker circle -- see
`panelBlock`/`mkId`); the total generated path count is `N*(N+1)/2` and the
circle count is `N`. -/
theorem c2_panel_and_count_invariant (g : Glyph) (N : ℕ) (out : Diagram)
    (hN : g.paths.length = N) (h : make_diagram g = .ok out) :
    out.baseChildren = ((List.range N).map fun i =>
        panelBlock g i (i / boxes_per_line) (i % boxes_per_line)).flatten ∧
      out.baseChildren.countP isPathChild = N * (N + 1) / 2 ∧
      out.baseChildren.countP isCircChild = N := by
  rw [make_diagram, bind_ok_iff] at h
  obtain ⟨⟨bc, ts, er, ec⟩, hloop, hout⟩ := h
  rw [hN] at hloop
  obtain ⟨hbc, her, hec⟩ := diagLoop_ok (m := 0) hloop
  rw [expectedChildren_range] at hbc
  obtain rfl := Except.ok.inj hout
  refine ⟨hbc, ?_, ?_⟩
  · show List.countP isPathChild bc = N * (N + 1) / 2
    rw [hbc, countP_flatten, List.map_map]
    have hcomp : (List.countP isPathChild ∘ fun i =>
        panelBlock g i (i / boxes_per_line) (i % boxes_per_line)) = fun i => i + 1 := by
      funext i
      exact countP_path_panelBlock g i _ _
    rw [hcomp, sum_map_succ_range]
  · show List.countP isCircChild bc = N
    rw [hbc, countP_flatten, List.map_map]
    have hcomp : (List.countP isCircChild ∘ fun i =>
        panelBlock g i (i / boxes_per_line) (i % boxes_per_line)) = fun i => 1 := by
      funext i
      exact countP_circ_panelBlock g i _ _
    rw [hcomp]
    simp

/-- C2 (witness): a 1-stroke glyph gets 1 = 1*2/2 path element and 1 circle. -/
theorem c2_panel_and_count_invariant_witness :
    ∃ out, make_diagram ⟨"k", ["M1,2"], ["matrix(1 0 0 1 3 4)"]⟩ = .ok out ∧
      out.baseChildren.countP isPathChild = 1 * (1 + 1) / 2 ∧
      out.baseChildren.countP isCircChild = 1 := by
  rcases hok : make_diagram ⟨"k", ["M1,2"], ["matrix(1 0 0 1 3 4)"]⟩ with e | out
  · have hko : (make_diagram ⟨"k", ["M1,2"], ["matrix(1 0 0 1 3 4)"]⟩).isOk = true := by
      with_unfolding_all rfl
    rw [hok] at hko
    exact Bool.noConfusion hko
  · obtain ⟨-, h2, h3⟩ := c2_panel_and_count_invariant
      ⟨"k", ["M1,2"], ["matrix(1 0 0 1 3 4)"]⟩ 1 out rfl hok
    exact ⟨out, rfl, h2, h3⟩

/-- C1 (counterexample): a 3-stroke glyph. The claim predicts width
`cell_width * (final_col + 1) = 109 * 3 = 327`, but after the loop `cur_col`
is already advanced past the last panel, so the code sets width
`109 * (3 + 1) = 436`. -/
theorem c1_width_counterexample :
    (make_diagram ⟨"kvg:x", ["M1,2", "M1,2", "M1,2"],
      ["matrix(1 0 0 1 3 4)", "matrix(1 0 0 1 3 4)", "matrix(1 0 0 1 3 4)"]⟩).map
        Diagram.width = .ok "436" ∧
    toString (kanjivg_width * ((3 - 1) % boxes_per_line + 1)) = "327" ∧
    ("436" : String) ≠ "327" :=
  ⟨by with_unfolding_all rfl, by with_unfolding_all rfl, by decide⟩

/-- C1 (amended): after the loop `cur_row`/`cur_col` hold the position of the
*next* (never drawn) panel: `cur_row = N / boxes_per_line`,
`cur_col = N % boxes_per_line`.  Hence width = `cell_width * (N % 6 + 1)`
when `N / 6 = 0` and `cell_width * 6` otherwise, height =
`cell_height * (N / 6 + 1)`, and the viewBox carries the same two numbers
(so e.g. a 3-stroke glyph is 4 cells wide, and a 6-stroke glyph 2 rows
high). -/
theorem c1_canvas_attributes (g : Glyph) (N : ℕ) (out : Diagram) (h1 : 1 ≤ N)
    (hN : g.paths.length = N) (h : make_diagram g = .ok out) :
    out.width = (if N / boxes_per_line = 0 then
        toString (kanjivg_width * (N % boxes_per_line + 1))
      else toString (kanjivg_width * boxes_per_line)) ∧
    out.height = toString (kanjivg_height * (N / boxes_per_line + 1)) ∧
    out.viewBox = "0 0 " ++ toString (if N / boxes_per_line = 0 then
        kanjivg_width * (N % boxes_per_line + 1)
      else kanjivg_width * boxes_per_line) ++ " " ++
      toString (kanjivg_height * (N / boxes_per_line + 1)) := by
  rw [make_diagram, bind_ok_iff] at h
  obtain ⟨⟨bc, ts, er, ec⟩, hloop, hout⟩ := h
  rw [hN] at hloop
  obtain ⟨-, her, hec⟩ := diagLoop_ok (m := 0) hloop
  obtain rfl := Except.ok.inj hout
  simp only [List.length_range, Nat.zero_add] at her hec
  subst her
  subst hec
  exact ⟨rfl, rfl, rfl⟩

/-- C1 (witness): the amended formulas at the 3-stroke glyph: width 436,
height 109. -/
theorem c1_canvas_attributes_witness :
    ∃ out, make_diagram ⟨"kvg:x", ["M1,2", "M1,2", "M1,2"],
        ["matrix(1 0 0 1 3 4)", "matrix(1 0 0 1 3 4)", "matrix(1 0 0 1 3 4)"]⟩ = .ok out ∧
      out.width = (if 3 / boxes_per_line = 0 then
          toString (kanjivg_width * (3 % boxes_per_line + 1))
        else toString (kanjivg_width * boxes_per_line)) ∧
      out.height = toString (kanjivg_height * (3 / boxes_per_line + 1)) := by
  rcases hok : make_diagram ⟨"kvg:x", ["M1,2", "M1,2", "M1,2"],
      ["matrix(1 0 0 1 3 4)", "matrix(1 0 0 1 3 4)", "matrix(1 0 0 1 3 4)"]⟩ with e | out
  · have hko : (make_diagram ⟨"kvg:x", ["M1,2", "M1,2", "M1,2"],
        ["matrix(1 0 0 1 3 4)", "matrix(1 0 0 1 3 4)", "matrix(1 0 0 1 3 4)"]⟩).isOk =
          true := by
      with_unfolding_all rfl
    rw [hok] at hko
    exact Bool.noConfusion hko
  · obtain ⟨h1, h2, -⟩ := c1_canvas_attributes ⟨"kvg:x", ["M1,2", "M1,2", "M1,2"],
      ["matrix(1 0 0 1 3 4)", "matrix(1 0 0 1 3 4)", "matrix(1 0 0 1 3 4)"]⟩ 3 out
      (by omega) rfl hok
    exact ⟨out, rfl, h1, h2⟩

/-- C9: with `boxes_per_line = 6` and 8 strokes, panel 7 (the last) sits at
row `7 / 6 = 1`, column `7 % 6 = 1` (its generated ids end in `-1-1`, see
`panelBlock`), and the canvas is `109 * 6` wide and `109 * 2` high. -/
theorem c9_eight_stroke_geometry (g : Glyph) (out : Diagram)
    (hN : g.paths.length = 8) (h : make_diagram g = .ok out) :
    7 / boxes_per_line = 1 ∧ 7 % boxes_per_line = 1 ∧
    out.baseChildren = ((List.range 8).map fun i =>
        panelBlock g i (i / boxes_per_line) (i % boxes_per_line)).flatten ∧
    out.width = toString (kanjivg_width * boxes_per_line) ∧
    out.height = toString (kanjivg_height * (1 + 1)) := by
  rw [make_diagram, bind_ok_iff] at h
  obtain ⟨⟨bc, ts, er, ec⟩, hloop, hout⟩ := h
  rw [hN] at hloop
  obtain ⟨hbc, her, hec⟩ := diagLoop_ok (m := 0) hloop
  rw [expectedChildren_range] at hbc
  obtain rfl := Except.ok.inj hout
  simp only [List.length_range, Nat.zero_add] at her hec
  have her' : er = 1 := by rw [her]; rfl
  subst her'
  exact ⟨rfl, rfl, hbc, rfl, rfl⟩

/-- C9 (witness): a concrete 8-stroke glyph: width `"654"`, height `"218"`. -/
theorem c9_eight_stroke_geometry_witness :
    ∃ out, make_diagram ⟨"k", List.replicate 8 "M1,2",
        List.replicate 8 "matrix(1 0 0 1 3 4)"⟩ = .ok out ∧
      out.width = toString (kanjivg_width * boxes_per_line) ∧
      out.height = toString (kanjivg_height * (1 + 1)) := by
  rcases hok : make_diagram ⟨"k", List.replicate 8 "M1,2",
      List.replicate 8 "matrix(1 0 0 1 3 4)"⟩ with e | out
  · have hko : (make_diagram ⟨"k", List.replicate 8 "M1,2",
        List.replicate 8 "matrix(1 0 0 1 3 4)"⟩).isOk = true := by
      with_unfolding_all rfl
    rw [hok] at hko
    exact Bool.noConfusion hko
  · obtain ⟨-, -, -, h4, h5⟩ := c9_eight_stroke_geometry ⟨"k", List.replicate 8 "M1,2",
      List.replicate 8 "matrix(1 0 0 1 3 4)"⟩ out (by rfl) hok
    exact ⟨out, rfl, h4, h5⟩

/-! ## C8: translation additivity

The machinery below re-tokenizes the string emitted by one `shift_path` pass
and compares a second pass over it with a single pass by the summed offsets. -/

/-- A scanner token `shift_path` accepts with a single-group run: unmatched
text, an `M` with exactly two numeric components, a `C` with exactly six, or
an `S` with exactly four. -/
def wfTok1 : Tok → Bool
  | .gap _ => true
  | .run h p =>
    match (splitChar ',' p).mapM parseFloat with
    | none => false
    | some vs =>
      (h == 'M' && vs.length == 2) || (h == 'C' && vs.length == 6) ||
        (h == 'S' && vs.length == 4)

/-- Shape well-formedness of a token list as the scanner produces it: gap
characters are not uppercase, a gap directly after a run is not in the
continuation class `[0-9.,-]`, run heads are uppercase, and run payloads stay
inside the continuation class.  The flag records whether a run immediately
precedes. -/
def wfToks : Bool → List Tok → Bool
  | _, [] => true
  | ar, .gap c :: ts => !isUpperAZ c && (!ar || !inClass c) && wfToks false ts
  | _, .run h p :: ts => isUpperAZ h && p.all inClass && wfToks true ts

/-- Scanner output is shape well-formed (in both scanner states). -/
theorem tokAux_wf : ∀ cs : List Char,
    wfToks false (tokAux none cs) = true ∧
    ∀ h acc, isUpperAZ h = true → acc.all inClass = true →
      ∀ b, wfToks b (tokAux (some (h, acc)) cs) = true := by
  intro cs
  induction cs with
  | nil =>
    refine ⟨rfl, ?_⟩
    intro h acc hh ha b
    simp [tokAux, wfToks, hh, ha]
  | cons c rest ih =>
    obtain ⟨ih1, ih2⟩ := ih
    constructor
    · cases hu : isUpperAZ c
      · simp only [tokAux, hu, Bool.false_eq_true, if_false]
        simp only [wfToks, hu, Bool.not_false, Bool.true_and, Bool.true_or, ih1]
      · simp only [tokAux, hu, if_true]
        exact ih2 c [] hu rfl false
    · intro h acc hh ha b
      cases hc : inClass c
      · cases hu : isUpperAZ c
        · simp only [tokAux, hc, hu, Bool.false_eq_true, if_false]
          simp only [wfToks, hh, ha, hu, hc, Bool.not_false, Bool.and_self, Bool.true_and,
            Bool.or_self, Bool.or_true, ih1]
        · simp only [tokAux, hc, hu, Bool.false_eq_true, if_false, if_true]
          simp only [wfToks, hh, ha, Bool.and_self, Bool.true_and]
          exact ih2 c [] hu rfl true
      · simp only [tokAux, hc, if_true]
        refine ih2 h (acc ++ [c]) hh ?_ b
        simp [List.all_append, ha, hc]

/-- A payload of continuation-class characters is absorbed into the pending
match. -/
theorem tokAux_absorb : ∀ p : List Char, p.all inClass = true →
    ∀ (h : Char) (acc rest : List Char),
      tokAux (some (h, acc)) (p ++ rest) = tokAux (some (h, acc ++ p)) rest := by
  intro p
  induction p with
  | nil =>
    intro _ h acc rest
    simp
  | cons c cs ih =>
    intro hall h acc rest
    simp only [List.all_cons, Bool.and_eq_true] at hall
    rw [List.cons_append, tokAux, if_pos hall.1, ih hall.2]
    simp

/-- Re-scanning a rendered shape-well-formed token list gives it back. -/
theorem renderToks_tokAux : ∀ T : List Tok,
    (wfToks false T = true → tokAux none (renderToks T) = T) ∧
    ∀ (h : Char) (p : List Char), isUpperAZ h = true → p.all inClass = true →
      wfToks true T = true → tokAux (some (h, p)) (renderToks T) = .run h p :: T := by
  intro T
  induction T with
  | nil =>
    refine ⟨fun _ => rfl, ?_⟩
    intro h p _ _ _
    rfl
  | cons t ts ih =>
    obtain ⟨ih1, ih2⟩ := ih
    cases t with
    | gap c =>
      constructor
      · intro hwf
        simp only [wfToks, Bool.and_eq_true, Bool.not_eq_eq_eq_not, Bool.not_true] at hwf
        obtain ⟨⟨hu, -⟩, hts⟩ := hwf
        rw [renderToks, tokAux, hu]
        simp only [Bool.false_eq_true, if_false]
        rw [ih1 hts]
      · intro h p hh hp hwf
        simp only [wfToks, Bool.and_eq_true, Bool.not_eq_eq_eq_not, Bool.not_true,
          Bool.or_eq_true] at hwf
        obtain ⟨⟨hu, hcl⟩, hts⟩ := hwf
        have hc : inClass c = false := by
          rcases hcl with hcl | hcl
          all_goals first
            | exact Bool.noConfusion hcl
            | simpa using hcl
        rw [renderToks, tokAux, hc, hu]
        simp only [Bool.false_eq_true, if_false]
        rw [ih1 hts]
    | run hd pd =>
      have key : ∀ hwf0 : wfToks true ts = true, isUpperAZ hd = true → pd.all inClass = true →
          tokAux (some (hd, [])) (pd ++ renderToks ts) = .run hd pd :: ts := by
        intro hwf0 hhd hpd
        rw [tokAux_absorb pd hpd hd [] (renderToks ts), List.nil_append]
        cases hts : ts with
        | nil => rfl
        | cons t2 ts2 =>
          rw [← hts, ih2 hd pd hhd hpd hwf0]
      constructor
      · intro hwf
        simp only [wfToks, Bool.and_eq_true] at hwf
        obtain ⟨⟨hhd, hpd⟩, hts⟩ := hwf
        rw [renderToks, tokAux, hhd]
        simp only [if_true]
        exact key hts hhd hpd
      · intro h p hh hp hwf
        simp only [wfToks, Bool.and_eq_true] at hwf
        obtain ⟨⟨hhd, hpd⟩, hts⟩ := hwf
        rw [renderToks, tokAux, isUpperAZ_not_inClass hhd, hhd]
        simp only [Bool.false_eq_true, if_false, if_true]
        rw [key hts hhd hpd]

/-- Characters of a `'{0:.2f}'` rendering. -/
theorem fmt2_chars (q : ℚ) : ∀ c ∈ fmt2 q, isNumChar c :=
  renderFixed_chars (roundHE (q * 100)) 2

/-- Characters of a `'{0:.3f}'` rendering. -/
theorem fmt3_chars (q : ℚ) : ∀ c ∈ fmt3 q, isNumChar c :=
  renderFixed_chars (roundHE (q * 1000)) 3

/-- `float` applied to a `'{0:.2f}'` rendering: the rounded value, exactly. -/
theorem parseFloat_fmt2 (q : ℚ) :
    parseFloat (fmt2 q) = some (((roundHE (q * 100) : ℤ) : ℚ) / 100) := by
  rw [fmt2, parseFloat_renderFixed _ 2 (by norm_num)]
  norm_num

/-- `float` applied to a `'{0:.3f}'` rendering. -/
theorem parseFloat_fmt3 (q : ℚ) :
    parseFloat (fmt3 q) = some (((roundHE (q * 1000) : ℤ) : ℚ) / 1000) := by
  rw [fmt3, parseFloat_renderFixed _ 3 (by norm_num)]
  norm_num

/-- Rounding to 2 decimals, then shifting by an integer, then rounding again
renders the same 2-decimal string as shifting once: the second rounding is
exact on an already-rounded value, and integer shifts scale to even
multiples of 100. -/
theorem fmt2_round_add (q : ℚ) (n : ℤ) :
    fmt2 (((roundHE (q * 100) : ℤ) : ℚ) / 100 + (n : ℚ)) = fmt2 (q + n) := by
  have h1 : (((roundHE (q * 100) : ℤ) : ℚ) / 100 + (n : ℚ)) * 100 =
      ((roundHE (q * 100) : ℤ) : ℚ) + ((100 * n : ℤ) : ℚ) := by
    push_cast
    ring
  have h2 : (q + (n : ℚ)) * 100 = q * 100 + ((100 * n : ℤ) : ℚ) := by
    push_cast
    ring
  have hev : Even (100 * n) := ⟨50 * n, by ring⟩
  rw [fmt2, fmt2, h1, h2, roundHE_add_int_even _ _ hev, roundHE_add_int_even _ _ hev,
    roundHE_intCast]

/-- The 3-decimal analogue of `fmt2_round_add`. -/
theorem fmt3_round_add (q : ℚ) (n : ℤ) :
    fmt3 (((roundHE (q * 1000) : ℤ) : ℚ) / 1000 + (n : ℚ)) = fmt3 (q + n) := by
  have h1 : (((roundHE (q * 1000) : ℤ) : ℚ) / 1000 + (n : ℚ)) * 1000 =
      ((roundHE (q * 1000) : ℤ) : ℚ) + ((1000 * n : ℤ) : ℚ) := by
    push_cast
    ring
  have h2 : (q + (n : ℚ)) * 1000 = q * 1000 + ((1000 * n : ℤ) : ℚ) := by
    push_cast
    ring
  have hev : Even (1000 * n) := ⟨500 * n, by ring⟩
  rw [fmt3, fmt3, h1, h2, roundHE_add_int_even _ _ hev, roundHE_add_int_even _ _ hev,
    roundHE_intCast]

/-- Adding an integer does not enlarge a rational's denominator. -/
theorem den_add_intCast (q : ℚ) (n : ℤ) : (q + (n : ℚ)).den ∣ q.den := by
  have h := Rat.add_den_dvd q (n : ℚ)
  rwa [Rat.den_intCast, mul_one] at h

/-- Every value produced by the `float` comprehension has a denominator
dividing a power of ten. -/
theorem mapM_parseFloat_den :
    ∀ {ts : List (List Char)} {vs : List ℚ}, ts.mapM parseFloat = some vs →
      ∀ v ∈ vs, ∃ l, v.den ∣ 10 ^ l := by
  intro ts
  induction ts with
  | nil =>
    intro vs h v hv
    simp only [List.mapM_nil, Option.pure_def, Option.some.injEq] at h
    rw [← h] at hv
    cases hv
  | cons t ts ih =>
    intro vs h v hv
    simp only [List.mapM_cons, Option.pure_def, Option.bind_eq_bind, Option.bind_eq_some,
      Option.some.injEq] at h
    obtain ⟨w, hw, ws, hws, rfl⟩ := h
    rcases List.mem_cons.mp hv with rfl | hv2
    · exact parseFloat_den_dvd hw
    · exact ih hws v hv2

/-- Splitting a comma-joined pair of comma-free pieces. -/
theorem splitChar_pair {a b : List Char} (ha : ∀ c ∈ a, c ≠ ',') (hb : ∀ c ∈ b, c ≠ ',') :
    splitChar ',' (a ++ ',' :: b) = [a, b] := by
  rw [splitChar_append _ ha, splitChar_eq_self hb]

/-- Splitting a comma-joined quadruple of comma-free pieces. -/
theorem splitChar_quad {a b c d : List Char} (ha : ∀ x ∈ a, x ≠ ',') (hb : ∀ x ∈ b, x ≠ ',')
    (hc : ∀ x ∈ c, x ≠ ',') (hd : ∀ x ∈ d, x ≠ ',') :
    splitChar ',' (a ++ ',' :: (b ++ ',' :: (c ++ ',' :: d))) = [a, b, c, d] := by
  rw [splitChar_append _ ha, splitChar_append _ hb, splitChar_append _ hc,
    splitChar_eq_self hd]

/-- Splitting a comma-joined sextuple of comma-free pieces. -/
theorem splitChar_six {a b c d e f : List Char} (ha : ∀ x ∈ a, x ≠ ',') (hb : ∀ x ∈ b, x ≠ ',')
    (hc : ∀ x ∈ c, x ≠ ',') (hd : ∀ x ∈ d, x ≠ ',') (he : ∀ x ∈ e, x ≠ ',')
    (hf : ∀ x ∈ f, x ≠ ',') :
    splitChar ',' (a ++ ',' :: (b ++ ',' :: (c ++ ',' :: (d ++ ',' :: (e ++ ',' :: f))))) =
      [a, b, c, d, e, f] := by
  rw [splitChar_append _ ha, splitChar_append _ hb, splitChar_append _ hc,
    splitChar_append _ hd, splitChar_append _ he, splitChar_eq_self hf]

/-- A well-formed `M` run is rewritten with `repr`-style coordinates and
fills an unset start point. -/
theorem runStep_M_ok {dx dy : ℚ} {p : List Char} {x y : ℚ} (st : Option (ℚ × ℚ))
    (hvs : (splitChar ',' p).mapM parseFloat = some [x, y]) :
    runStep dx dy 'M' p st =
      .ok (.run 'M' (pyRepr (x + dx) ++ ',' :: pyRepr (y + dy)),
        some (st.getD (x + dx, y + dy))) := by
  rw [runStep, if_pos rfl, parseFloats_ok.mpr hvs]
  simp only [Bind.bind, Except.bind]
  rw [dif_pos (show ([x, y] : List ℚ).length = 2 from rfl)]
  rfl

/-- Every character of `piece ++ ',' :: rest` is in the continuation class
when the piece is a rendered number and the rest already qualifies. -/
theorem inClass_join {u v : List Char} (hu : ∀ c ∈ u, isNumChar c)
    (hv : ∀ c ∈ v, inClass c = true) : ∀ c ∈ u ++ ',' :: v, inClass c = true := by
  intro c hc
  rcases List.mem_append.mp hc with h | h
  · exact isNumChar_inClass (hu c h)
  · rcases List.mem_cons.mp h with rfl | h
    · decide
    · exact hv c h

/-- Numeric pieces are comma-free. -/
theorem chars_ne_comma {u : List Char} (hu : ∀ c ∈ u, isNumChar c) :
    ∀ c ∈ u, c ≠ ',' :=
  fun c hc => isNumChar_ne_comma (hu c hc)

/-- Double-shifting a well-formed `M` run: the first pass emits `repr`
coordinates, the second pass re-parses them exactly and produces the token
and start point of a single pass by the summed integer offsets. -/
theorem stepM_double (mx my nx ny : ℤ) {p : List Char} {x y : ℚ}
    (hp : (splitChar ',' p).mapM parseFloat = some [x, y]) (s1 s2 : Option (ℚ × ℚ)) :
    ∃ p1 p2 pt1 pt2,
      runStep (mx : ℚ) (my : ℚ) 'M' p s1 = .ok (.run 'M' p1, some (s1.getD pt1)) ∧
      (∀ c ∈ p1, inClass c = true) ∧
      runStep (nx : ℚ) (ny : ℚ) 'M' p1 s2 = .ok (.run 'M' p2, some (s2.getD pt2)) ∧
      runStep ((mx : ℚ) + (nx : ℚ)) ((my : ℚ) + (ny : ℚ)) 'M' p s2 =
        .ok (.run 'M' p2, some (s2.getD pt2)) := by
  have hxd1 : ∃ l, (x + (mx : ℚ)).den ∣ 10 ^ l := by
    obtain ⟨l, hl⟩ := mapM_parseFloat_den hp x (by simp)
    exact ⟨l, dvd_trans (den_add_intCast x mx) hl⟩
  have hyd1 : ∃ l, (y + (my : ℚ)).den ∣ 10 ^ l := by
    obtain ⟨l, hl⟩ := mapM_parseFloat_den hp y (by simp)
    exact ⟨l, dvd_trans (den_add_intCast y my) hl⟩
  refine ⟨pyRepr (x + (mx : ℚ)) ++ ',' :: pyRepr (y + (my : ℚ)),
    pyRepr (x + (mx : ℚ) + (nx : ℚ)) ++ ',' :: pyRepr (y + (my : ℚ) + (ny : ℚ)),
    (x + (mx : ℚ), y + (my : ℚ)), (x + (mx : ℚ) + (nx : ℚ), y + (my : ℚ) + (ny : ℚ)),
    runStep_M_ok s1 hp, ?_, ?_, ?_⟩
  · exact inClass_join (pyRepr_chars _)
      (fun c hc => isNumChar_inClass (pyRepr_chars _ c hc))
  · have hmm : (splitChar ','
        (pyRepr (x + (mx : ℚ)) ++ ',' :: pyRepr (y + (my : ℚ)))).mapM parseFloat =
        some [x + (mx : ℚ), y + (my : ℚ)] := by
      rw [splitChar_pair (chars_ne_comma (pyRepr_chars _)) (chars_ne_comma (pyRepr_chars _))]
      simp only [List.mapM_cons, List.mapM_nil, parseFloat_pyRepr hxd1,
        parseFloat_pyRepr hyd1, Option.pure_def, Option.bind_eq_bind, Option.some_bind]
    exact runStep_M_ok s2 hmm
  · have h3 := @runStep_M_ok ((mx : ℚ) + (nx : ℚ)) ((my : ℚ) + (ny : ℚ)) _ _ _ s2 hp
    rw [show x + ((mx : ℚ) + (nx : ℚ)) = x + (mx : ℚ) + (nx : ℚ) from by ring,
      show y + ((my : ℚ) + (ny : ℚ)) = y + (my : ℚ) + (ny : ℚ) from by ring] at h3
    exact h3

/-- Double-shifting a single-group `C` run: the second pass re-parses the
2-decimal renderings, and re-rounding after the second integer shift agrees
with rounding once after the summed shift. -/
theorem stepC_double (mx my nx ny : ℤ) {p : List Char} {a b c d e f : ℚ}
    (hp : (splitChar ',' p).mapM parseFloat = some [a, b, c, d, e, f])
    (s1 s2 : Option (ℚ × ℚ)) :
    ∃ p1 p2,
      runStep (mx : ℚ) (my : ℚ) 'C' p s1 = .ok (.run 'C' p1, s1) ∧
      (∀ ch ∈ p1, inClass ch = true) ∧
      runStep (nx : ℚ) (ny : ℚ) 'C' p1 s2 = .ok (.run 'C' p2, s2) ∧
      runStep ((mx : ℚ) + (nx : ℚ)) ((my : ℚ) + (ny : ℚ)) 'C' p s2 =
        .ok (.run 'C' p2, s2) := by
  have hrc : ∀ v1 v2 v3 v4 v5 v6 : ℚ, renderC [v1, v2, v3, v4, v5, v6] =
      fmt2 v1 ++ ',' :: (fmt2 v2 ++ ',' :: (fmt2 v3 ++ ',' :: (fmt2 v4 ++ ',' ::
        (fmt2 v5 ++ ',' :: fmt2 v6)))) := by
    intro v1 v2 v3 v4 v5 v6
    simp [renderC]
  have h1 := @runStep_C_ok (mx : ℚ) (my : ℚ) _ _ s1 hp (by norm_num)
  rw [show shiftAlt (mx : ℚ) (my : ℚ) [a, b, c, d, e, f] =
      [a + (mx : ℚ), b + (my : ℚ), c + (mx : ℚ), d + (my : ℚ), e + (mx : ℚ), f + (my : ℚ)]
      from rfl, hrc] at h1
  refine ⟨_, fmt2 (a + (mx : ℚ) + (nx : ℚ)) ++ ',' :: (fmt2 (b + (my : ℚ) + (ny : ℚ)) ++ ',' ::
    (fmt2 (c + (mx : ℚ) + (nx : ℚ)) ++ ',' :: (fmt2 (d + (my : ℚ) + (ny : ℚ)) ++ ',' ::
      (fmt2 (e + (mx : ℚ) + (nx : ℚ)) ++ ',' :: fmt2 (f + (my : ℚ) + (ny : ℚ)))))),
    h1, ?_, ?_, ?_⟩
  · exact inClass_join (fmt2_chars _) (inClass_join (fmt2_chars _) (inClass_join (fmt2_chars _)
      (inClass_join (fmt2_chars _) (inClass_join (fmt2_chars _)
        (fun ch hc => isNumChar_inClass (fmt2_chars _ ch hc))))))
  · have hmm : (splitChar ',' (fmt2 (a + (mx : ℚ)) ++ ',' :: (fmt2 (b + (my : ℚ)) ++ ',' ::
        (fmt2 (c + (mx : ℚ)) ++ ',' :: (fmt2 (d + (my : ℚ)) ++ ',' ::
          (fmt2 (e + (mx : ℚ)) ++ ',' :: fmt2 (f + (my : ℚ)))))))).mapM parseFloat =
        some [((roundHE ((a + (mx : ℚ)) * 100) : ℤ) : ℚ) / 100,
          ((roundHE ((b + (my : ℚ)) * 100) : ℤ) : ℚ) / 100,
          ((roundHE ((c + (mx : ℚ)) * 100) : ℤ) : ℚ) / 100,
          ((roundHE ((d + (my : ℚ)) * 100) : ℤ) : ℚ) / 100,
          ((roundHE ((e + (mx : ℚ)) * 100) : ℤ) : ℚ) / 100,
          ((roundHE ((f + (my : ℚ)) * 100) : ℤ) : ℚ) / 100] := by
      rw [splitChar_six (chars_ne_comma (fmt2_chars _)) (chars_ne_comma (fmt2_chars _))
        (chars_ne_comma (fmt2_chars _)) (chars_ne_comma (fmt2_chars _))
        (chars_ne_comma (fmt2_chars _)) (chars_ne_comma (fmt2_chars _))]
      simp only [List.mapM_cons, List.mapM_nil, parseFloat_fmt2, Option.pure_def,
        Option.bind_eq_bind, Option.some_bind]
    have h2 := @runStep_C_ok (nx : ℚ) (ny : ℚ) _ _ s2 hmm (by norm_num)
    rw [show shiftAlt (nx : ℚ) (ny : ℚ)
        [((roundHE ((a + (mx : ℚ)) * 100) : ℤ) : ℚ) / 100,
          ((roundHE ((b + (my : ℚ)) * 100) : ℤ) : ℚ) / 100,
          ((roundHE ((c + (mx : ℚ)) * 100) : ℤ) : ℚ) / 100,
          ((roundHE ((d + (my : ℚ)) * 100) : ℤ) : ℚ) / 100,
          ((roundHE ((e + (mx : ℚ)) * 100) : ℤ) : ℚ) / 100,
          ((roundHE ((f + (my : ℚ)) * 100) : ℤ) : ℚ) / 100] =
        [((roundHE ((a + (mx : ℚ)) * 100) : ℤ) : ℚ) / 100 + (nx : ℚ),
          ((roundHE ((b + (my : ℚ)) * 100) : ℤ) : ℚ) / 100 + (ny : ℚ),
          ((roundHE ((c + (mx : ℚ)) * 100) : ℤ) : ℚ) / 100 + (nx : ℚ),
          ((roundHE ((d + (my : ℚ)) * 100) : ℤ) : ℚ) / 100 + (ny : ℚ),
          ((roundHE ((e + (mx : ℚ)) * 100) : ℤ) : ℚ) / 100 + (nx : ℚ),
          ((roundHE ((f + (my : ℚ)) * 100) : ℤ) : ℚ) / 100 + (ny : ℚ)] from rfl,
      hrc, fmt2_round_add (a + (mx : ℚ)) nx, fmt2_round_add (b + (my : ℚ)) ny,
      fmt2_round_add (c + (mx : ℚ)) nx, fmt2_round_add (d + (my : ℚ)) ny,
      fmt2_round_add (e + (mx : ℚ)) nx, fmt2_round_add (f + (my : ℚ)) ny] at h2
    exact h2
  · have h3 := @runStep_C_ok ((mx : ℚ) + (nx : ℚ)) ((my : ℚ) + (ny : ℚ)) _ _ s2 hp
      (by norm_num)
    rw [show shiftAlt ((mx : ℚ) + (nx : ℚ)) ((my : ℚ) + (ny : ℚ)) [a, b, c, d, e, f] =
        [a + ((mx : ℚ) + (nx : ℚ)), b + ((my : ℚ) + (ny : ℚ)), c + ((mx : ℚ) + (nx : ℚ)),
          d + ((my : ℚ) + (ny : ℚ)), e + ((mx : ℚ) + (nx : ℚ)), f + ((my : ℚ) + (ny : ℚ))]
        from rfl, hrc,
      show a + ((mx : ℚ) + (nx : ℚ)) = a + (mx : ℚ) + (nx : ℚ) from by ring,
      show b + ((my : ℚ) + (ny : ℚ)) = b + (my : ℚ) + (ny : ℚ) from by ring,
      show c + ((mx : ℚ) + (nx : ℚ)) = c + (mx : ℚ) + (nx : ℚ) from by ring,
      show d + ((my : ℚ) + (ny : ℚ)) = d + (my : ℚ) + (ny : ℚ) from by ring,
      show e + ((mx : ℚ) + (nx : ℚ)) = e + (mx : ℚ) + (nx : ℚ) from by ring,
      show f + ((my : ℚ) + (ny : ℚ)) = f + (my : ℚ) + (ny : ℚ) from by ring] at h3
    exact h3

/-- Double-shifting a single-group `S` run: as for `C`, with the fourth
component rendered at 3 decimals. -/
theorem stepS_double (mx my nx ny : ℤ) {p : List Char} {a b c d : ℚ}
    (hp : (splitChar ',' p).mapM parseFloat = some [a, b, c, d])
    (s1 s2 : Option (ℚ × ℚ)) :
    ∃ p1 p2,
      runStep (mx : ℚ) (my : ℚ) 'S' p s1 = .ok (.run 'S' p1, s1) ∧
      (∀ ch ∈ p1, inClass ch = true) ∧
      runStep (nx : ℚ) (ny : ℚ) 'S' p1 s2 = .ok (.run 'S' p2, s2) ∧
      runStep ((mx : ℚ) + (nx : ℚ)) ((my : ℚ) + (ny : ℚ)) 'S' p s2 =
        .ok (.run 'S' p2, s2) := by
  have hrs : ∀ v1 v2 v3 v4 : ℚ, renderS [v1, v2, v3, v4] =
      fmt2 v1 ++ ',' :: (fmt2 v2 ++ ',' :: (fmt2 v3 ++ ',' :: fmt3 v4)) := by
    intro v1 v2 v3 v4
    simp [renderS]
  have h1 := @runStep_S_ok (mx : ℚ) (my : ℚ) _ _ s1 hp (by norm_num)
  rw [show shiftAlt (mx : ℚ) (my : ℚ) [a, b, c, d] =
      [a + (mx : ℚ), b + (my : ℚ), c + (mx : ℚ), d + (my : ℚ)] from rfl, hrs] at h1
  refine ⟨_, fmt2 (a + (mx : ℚ) + (nx : ℚ)) ++ ',' :: (fmt2 (b + (my : ℚ) + (ny : ℚ)) ++ ',' ::
    (fmt2 (c + (mx : ℚ) + (nx : ℚ)) ++ ',' :: fmt3 (d + (my : ℚ) + (ny : ℚ)))),
    h1, ?_, ?_, ?_⟩
  · exact inClass_join (fmt2_chars _) (inClass_join (fmt2_chars _) (inClass_join (fmt2_chars _)
      (fun ch hc => isNumChar_inClass (fmt3_chars _ ch hc))))
  · have hmm : (splitChar ',' (fmt2 (a + (mx : ℚ)) ++ ',' :: (fmt2 (b + (my : ℚ)) ++ ',' ::
        (fmt2 (c + (mx : ℚ)) ++ ',' :: fmt3 (d + (my : ℚ)))))).mapM parseFloat =
        some [((roundHE ((a + (mx : ℚ)) * 100) : ℤ) : ℚ) / 100,
          ((roundHE ((b + (my : ℚ)) * 100) : ℤ) : ℚ) / 100,
          ((roundHE ((c + (mx : ℚ)) * 100) : ℤ) : ℚ) / 100,
          ((roundHE ((d + (my : ℚ)) * 1000) : ℤ) : ℚ) / 1000] := by
      rw [splitChar_quad (chars_ne_comma (fmt2_chars _)) (chars_ne_comma (fmt2_chars _))
        (chars_ne_comma (fmt2_chars _)) (chars_ne_comma (fmt3_chars _))]
      simp only [List.mapM_cons, List.mapM_nil, parseFloat_fmt2, parseFloat_fmt3,
        Option.pure_def, Option.bind_eq_bind, Option.some_bind]
    have h2 := @runStep_S_ok (nx : ℚ) (ny : ℚ) _ _ s2 hmm (by norm_num)
    rw [show shiftAlt (nx : ℚ) (ny : ℚ)
        [((roundHE ((a + (mx : ℚ)) * 100) : ℤ) : ℚ) / 100,
          ((roundHE ((b + (my : ℚ)) * 100) : ℤ) : ℚ) / 100,
          ((roundHE ((c + (mx : ℚ)) * 100) : ℤ) : ℚ) / 100,
          ((roundHE ((d + (my : ℚ)) * 1000) : ℤ) : ℚ) / 1000] =
        [((roundHE ((a + (mx : ℚ)) * 100) : ℤ) : ℚ) / 100 + (nx : ℚ),
          ((roundHE ((b + (my : ℚ)) * 100) : ℤ) : ℚ) / 100 + (ny : ℚ),
          ((roundHE ((c + (mx : ℚ)) * 100) : ℤ) : ℚ) / 100 + (nx : ℚ),
          ((roundHE ((d + (my : ℚ)) * 1000) : ℤ) : ℚ) / 1000 + (ny : ℚ)] from rfl,
      hrs, fmt2_round_add (a + (mx : ℚ)) nx, fmt2_round_add (b + (my : ℚ)) ny,
      fmt2_round_add (c + (mx : ℚ)) nx, fmt3_round_add (d + (my : ℚ)) ny] at h2
    exact h2
  · have h3 := @runStep_S_ok ((mx : ℚ) + (nx : ℚ)) ((my : ℚ) + (ny : ℚ)) _ _ s2 hp
      (by norm_num)
    rw [show shiftAlt ((mx : ℚ) + (nx : ℚ)) ((my : ℚ) + (ny : ℚ)) [a, b, c, d] =
        [a + ((mx : ℚ) + (nx : ℚ)), b + ((my : ℚ) + (ny : ℚ)), c + ((mx : ℚ) + (nx : ℚ)),
          d + ((my : ℚ) + (ny : ℚ))] from rfl, hrs,
      show a + ((mx : ℚ) + (nx : ℚ)) = a + (mx : ℚ) + (nx : ℚ) from by ring,
      show b + ((my : ℚ) + (ny : ℚ)) = b + (my : ℚ) + (ny : ℚ) from by ring,
      show c + ((mx : ℚ) + (nx : ℚ)) = c + (mx : ℚ) + (nx : ℚ) from by ring,
      show d + ((my : ℚ) + (ny : ℚ)) = d + (my : ℚ) + (ny : ℚ) from by ring] at h3
    exact h3

/-- Peel one element off a list of known positive length. -/
theorem length_eq_cons {α : Type} {l : List α} {n : ℕ} (h : l.length = n + 1) :
    ∃ x t, l = x :: t ∧ t.length = n := by
  cases l with
  | nil => simp at h
  | cons x t => exact ⟨x, t, rfl, by simpa using h⟩

/-- The double-shift loop invariant: over a list of single-group tokens, one
pass succeeds, its output is still shape well-formed, and a second pass over
the output (from any state) agrees exactly, token list and state, with a
single pass by the summed shifts (from that same state). -/
theorem goToks_double (mx my nx ny : ℤ) :
    ∀ T : List Tok, T.all wfTok1 = true → ∀ s2 s1 : Option (ℚ × ℚ),
      ∃ T1 s1f T2 s2f,
        goToks (mx : ℚ) (my : ℚ) T s1 = .ok (T1, s1f) ∧
        goToks (nx : ℚ) (ny : ℚ) T1 s2 = .ok (T2, s2f) ∧
        goToks ((mx : ℚ) + (nx : ℚ)) ((my : ℚ) + (ny : ℚ)) T s2 = .ok (T2, s2f) ∧
        ∀ b, wfToks b T = true → wfToks b T1 = true := by
  intro T
  induction T with
  | nil =>
    intro _ s2 s1
    exact ⟨[], s1, [], s2, rfl, rfl, rfl, fun _ h => h⟩
  | cons t ts ih =>
    intro hall s2 s1
    rw [List.all_cons, Bool.and_eq_true] at hall
    obtain ⟨ht, hts⟩ := hall
    cases t with
    | gap c =>
      obtain ⟨T1, s1f, T2, s2f, h1, h2, h3, hcar⟩ := ih hts s2 s1
      refine ⟨.gap c :: T1, s1f, .gap c :: T2, s2f, ?_, ?_, ?_, ?_⟩
      · rw [goToks, h1]
        rfl
      · rw [goToks, h2]
        rfl
      · rw [goToks, h3]
        rfl
      · intro b hb
        simp only [wfToks, Bool.and_eq_true] at hb ⊢
        exact ⟨hb.1, hcar false hb.2⟩
    | run hd pd =>
      rcases hm : (splitChar ',' pd).mapM parseFloat with _ | vs
      · simp only [wfTok1] at ht
        rw [hm] at ht
        exact Bool.noConfusion ht
      · simp only [wfTok1] at ht
        rw [hm] at ht
        simp only [Bool.or_eq_true, Bool.and_eq_true, beq_iff_eq] at ht
        rcases ht with (⟨rfl, hlen⟩ | ⟨rfl, hlen⟩) | ⟨rfl, hlen⟩
        · obtain ⟨x, t1, rfl, hl1⟩ := length_eq_cons (show vs.length = 1 + 1 from by omega)
          obtain ⟨y, t2, rfl, hl2⟩ := length_eq_cons (show t1.length = 0 + 1 from by omega)
          rw [List.length_eq_zero] at hl2
          subst hl2
          obtain ⟨p1, p2, pt1, pt2, hs1, hcls, hs2, hs3⟩ := stepM_double mx my nx ny hm s1 s2
          obtain ⟨T1, s1f, T2, s2f, h1, h2, h3, hcar⟩ :=
            ih hts (some (s2.getD pt2)) (some (s1.getD pt1))
          refine ⟨.run 'M' p1 :: T1, s1f, .run 'M' p2 :: T2, s2f, ?_, ?_, ?_, ?_⟩
          · rw [goToks, hs1]
            simp only [Bind.bind, Except.bind]
            rw [h1]
          · rw [goToks, hs2]
            simp only [Bind.bind, Except.bind]
            rw [h2]
          · rw [goToks, hs3]
            simp only [Bind.bind, Except.bind]
            rw [h3]
          · intro b hb
            simp only [wfToks, Bool.and_eq_true] at hb ⊢
            exact ⟨⟨hb.1.1, List.all_eq_true.mpr (fun c hc => hcls c hc)⟩, hcar true hb.2⟩
        · obtain ⟨a, t1, rfl, hl1⟩ := length_eq_cons (show vs.length = 5 + 1 from by omega)
          obtain ⟨b, t2, rfl, hl2⟩ := length_eq_cons (show t1.length = 4 + 1 from by omega)
          obtain ⟨c, t3, rfl, hl3⟩ := length_eq_cons (show t2.length = 3 + 1 from by omega)
          obtain ⟨d, t4, rfl, hl4⟩ := length_eq_cons (show t3.length = 2 + 1 from by omega)
          obtain ⟨e, t5, rfl, hl5⟩ := length_eq_cons (show t4.length = 1 + 1 from by omega)
          obtain ⟨f, t6, rfl, hl6⟩ := length_eq_cons (show t5.length = 0 + 1 from by omega)
          rw [List.length_eq_zero] at hl6
          subst hl6
          obtain ⟨p1, p2, hs1, hcls, hs2, hs3⟩ := stepC_double mx my nx ny hm s1 s2
          obtain ⟨T1, s1f, T2, s2f, h1, h2, h3, hcar⟩ := ih hts s2 s1
          refine ⟨.run 'C' p1 :: T1, s1f, .run 'C' p2 :: T2, s2f, ?_, ?_, ?_, ?_⟩
          · rw [goToks, hs1]
            simp only [Bind.bind, Except.bind]
            rw [h1]
          · rw [goToks, hs2]
            simp only [Bind.bind, Except.bind]
            rw [h2]
          · rw [goToks, hs3]
            simp only [Bind.bind, Except.bind]
            rw [h3]
          · intro b hb
            simp only [wfToks, Bool.and_eq_true] at hb ⊢
            exact ⟨⟨hb.1.1, List.all_eq_true.mpr (fun ch hc => hcls ch hc)⟩, hcar true hb.2⟩
        · obtain ⟨a, t1, rfl, hl1⟩ := length_eq_cons (show vs.length = 3 + 1 from by omega)
          obtain ⟨b, t2, rfl, hl2⟩ := length_eq_cons (show t1.length = 2 + 1 from by omega)
          obtain ⟨c, t3, rfl, hl3⟩ := length_eq_cons (show t2.length = 1 + 1 from by omega)
          obtain ⟨d, t4, rfl, hl4⟩ := length_eq_cons (show t3.length = 0 + 1 from by omega)
          rw [List.length_eq_zero] at hl4
          subst hl4
          obtain ⟨p1, p2, hs1, hcls, hs2, hs3⟩ := stepS_double mx my nx ny hm s1 s2
          obtain ⟨T1, s1f, T2, s2f, h1, h2, h3, hcar⟩ := ih hts s2 s1
          refine ⟨.run 'S' p1 :: T1, s1f, .run 'S' p2 :: T2, s2f, ?_, ?_, ?_, ?_⟩
          · rw [goToks, hs1]
            simp only [Bind.bind, Except.bind]
            rw [h1]
          · rw [goToks, hs2]
            simp only [Bind.bind, Except.bind]
            rw [h2]
          · rw [goToks, hs3]
            simp only [Bind.bind, Except.bind]
            rw [h3]
          · intro b hb
            simp only [wfToks, Bool.and_eq_true] at hb ⊢
            exact ⟨⟨hb.1.1, List.all_eq_true.mpr (fun ch hc => hcls ch hc)⟩, hcar true hb.2⟩

/-- C8 (amended): for a path string whose scanner runs are all single-group
(an `M` run with exactly two numeric components, a `C` run with exactly six,
an `S` run with exactly four), applying `shift_path` with `(row1, col1)` and
then applying it again with `(row2, col2)` to the emitted command string
yields exactly the same command string and the same start point as a single
`shift_path` by `(row1 + row2, col1 + col2)`: the fixed-precision re-rounding
of the second pass is exact.  (For runs with several groups the claim fails;
see the counterexample.) -/
theorem c8_translation_additive_single_group (d : String) (r1 c1 r2 c2 : ℕ)
    (hw : (tokenize d.data).all wfTok1 = true) :
    ∃ out1 : String × Option ℚ × Option ℚ,
      shift_path d r1 c1 = .ok out1 ∧
      shift_path out1.1 r2 c2 = shift_path d (r1 + r2) (c1 + c2) := by
  obtain ⟨T1, s1f, T2, s2f, h1, h2, h3, hcar⟩ :=
    goToks_double ((c1 : ℤ) * 109) ((r1 : ℤ) * 109) ((c2 : ℤ) * 109) ((r2 : ℤ) * 109)
      (tokenize d.data) hw none none
  have e1 : ((c1 * kanjivg_width : ℕ) : ℚ) = (((c1 : ℤ) * 109 : ℤ) : ℚ) := by
    rw [show kanjivg_width = 109 from rfl]
    push_cast
    ring
  have e2 : ((r1 * kanjivg_height : ℕ) : ℚ) = (((r1 : ℤ) * 109 : ℤ) : ℚ) := by
    rw [show kanjivg_height = 109 from rfl]
    push_cast
    ring
  have e3 : ((c2 * kanjivg_width : ℕ) : ℚ) = (((c2 : ℤ) * 109 : ℤ) : ℚ) := by
    rw [show kanjivg_width = 109 from rfl]
    push_cast
    ring
  have e4 : ((r2 * kanjivg_height : ℕ) : ℚ) = (((r2 : ℤ) * 109 : ℤ) : ℚ) := by
    rw [show kanjivg_height = 109 from rfl]
    push_cast
    ring
  have e5 : (((c1 + c2) * kanjivg_width : ℕ) : ℚ) =
      (((c1 : ℤ) * 109 : ℤ) : ℚ) + (((c2 : ℤ) * 109 : ℤ) : ℚ) := by
    rw [show kanjivg_width = 109 from rfl]
    push_cast
    ring
  have e6 : (((r1 + r2) * kanjivg_height : ℕ) : ℚ) =
      (((r1 : ℤ) * 109 : ℤ) : ℚ) + (((r2 : ℤ) * 109 : ℤ) : ℚ) := by
    rw [show kanjivg_height = 109 from rfl]
    push_cast
    ring
  have hT1wf : wfToks false T1 = true := hcar false (tokAux_wf d.data).1
  have htok1 : tokenize (renderToks T1) = T1 := (renderToks_tokAux T1).1 hT1wf
  refine ⟨(⟨renderToks T1⟩, s1f.map Prod.fst, s1f.map Prod.snd), ?_, ?_⟩
  · rw [shift_path, e1, e2, h1]
    rfl
  · rw [shift_path, shift_path,
      show ((⟨renderToks T1⟩ : String)).data = renderToks T1 from rfl, htok1, e3, e4, h2,
      e5, e6, h3]

/-- C8 (counterexample): a `C` run with two groups of six.  The first pass
re-emits the groups with no separator between them, gluing `6.00` and `7.00`
into the unparsable token `6.007.00`; re-applying `shift_path` to its own
output then raises `ValueError`, while a single combined shift (same summed
offsets) succeeds.  Translation additivity therefore fails for multi-group
runs. -/
theorem c8_multigroup_not_additive :
    ∃ out1 : String × Option ℚ × Option ℚ,
      shift_path ⟨"C1,2,3,4,5,6,7,8,9,10,11,12".data⟩ 0 0 = .ok out1 ∧
      out1.1 = ⟨"C1.00,2.00,3.00,4.00,5.00,6.007.00,8.00,9.00,10.00,11.00,12.00".data⟩ ∧
      shift_path out1.1 0 0 = .error .valueError := by
  refine ⟨(⟨"C1.00,2.00,3.00,4.00,5.00,6.007.00,8.00,9.00,10.00,11.00,12.00".data⟩,
    none, none), ?_, rfl, ?_⟩
  · with_unfolding_all rfl
  · with_unfolding_all rfl

/-- C8 (witness): a path with one `M`, a single-group `C`, a single-group
`S`, and trailing unmatched text, shifted by (1,2) and then by (2,1),
matches the single shift by (3,3) exactly. -/
theorem c8_translation_additive_single_group_witness :
    ∃ out1 : String × Option ℚ × Option ℚ,
      shift_path "M10,20C1,2,3,4,5,6S7,8,9,10z" 1 2 = .ok out1 ∧
      shift_path out1.1 2 1 = shift_path "M10,20C1,2,3,4,5,6S7,8,9,10z" (1 + 2) (2 + 1) :=
  c8_translation_additive_single_group "M10,20C1,2,3,4,5,6S7,8,9,10z" 1 2 2 1
    (by with_unfolding_all decide)

end GenStrokes
